import Mathlib

/-!
Verification of the RoutesCC client/driver matching engine
(`server/matchmaker.py`, `server/mongo_helpers.py`).

The engine keeps lists of rides and drivers, a set of rejected
(driver_id, ride_id) pairs and a `changed` flag.  A matching run builds a
flow network (source, one node per driver, one node per unmatched ride,
sink), solves it with a Ford-Fulkerson maximum-flow routine and reads the
saturated driver-to-ride edges back into each ride's `possible_drivers`
list, re-running the whole pipeline with a doubled distance threshold when
too few rides received a suggestion.

Shallow embedding conventions:
* timestamps and distances are integers (`Int`); the Python `timedelta.days`
  of `now - ride_end` is `(now - ride_end) / 86400` with floor division,
  which is `Int` division by a positive constant;
* the distance collaborator `get_distance_between` (module
  `server/maps_api.py`, not part of the sources) is an abstract function
  carried in an `Env`;
* the Python dict-of-dicts graph keyed by strings "s", "t", "d<i>", "r<j>"
  is embedded as a function over the inductive `Node` type with
  constructors `S`, `T`, `D i`, `R j`; presence of a key is `Option`;
* object references (a ride's assigned driver, candidate entries) are
  embedded as driver ids, as the reference is only used for lookup;
* `server/max_flow.py` and the `Ride`/`Driver` classes of
  `server/objects/` are not among the sources; they are modelled from the
  specification and marked as such in their doc comments.
-/

namespace RoutesCC

/-- A candidate entry of `Ride.possible_drivers`: driver id, distance from
the driver's address to the ride's pickup address, and the list of the
driver's conflicting committed ride ids. -/
abbrev PDEntry := String × Int × List String

/-- Modelled from the spec: the `Ride` record of `server/objects/rides.py`
(not among the sources).  A ride has a stable id, a pickup address, a time
interval, an optional assigned driver (a non-owning reference, embedded as
the driver id) and a candidate list rebuilt by every matching run. -/
structure Ride where
  id : String
  pickup_address : String
  ride_start : Int
  ride_end : Int
  assigned_driver : Option String := none
  possible_drivers : List PDEntry := []
deriving DecidableEq, Repr

/-- Modelled from the spec: the `Driver` record of
`server/objects/driver.py` (not among the sources).  A driver has an id, an
address and a list of committed `(start, end, ride_id)` intervals. -/
structure Driver where
  id : String
  address : String
  unavailable_timings : List (Int × Int × String) := []
deriving DecidableEq, Repr

/-- The in-memory state of `MatchMaker` (`server/matchmaker.py`, lines
31-34): the ride list, the driver list, the `changed` flag and the
rejected-pair set (embedded as a duplicate-free-by-use list with set
membership). -/
structure MatchMaker where
  rides : List Ride := []
  drivers : List Driver := []
  changed : Bool := false
  rejected : List (String × String) := []
deriving DecidableEq, Repr

/-- The external collaborators of the engine: the distance lookup
`get_distance_between` of `server/maps_api.py` (not among the sources,
treated as an opaque numeric function per the spec). -/
structure Env where
  dist : String → String → Int

/-- Modelled from the spec: whether two time intervals overlap (the
conflict check of the missing `Driver` class); the usual strict
interval-intersection test. -/
def overlaps (s1 e1 s2 e2 : Int) : Bool :=
  decide (s1 < e2) && decide (s2 < e1)

/-- Modelled from the spec: `Driver.add_accepted_ride` — fails and leaves
the driver unchanged when the ride's interval overlaps a committed
interval, otherwise records `(start, end, ride_id)` and succeeds. -/
def Driver.add_accepted_ride (d : Driver) (r : Ride) : Bool × Driver :=
  if d.unavailable_timings.any (fun t => overlaps t.1 t.2.1 r.ride_start r.ride_end) then
    (false, d)
  else
    (true, { d with unavailable_timings :=
        d.unavailable_timings ++ [(r.ride_start, r.ride_end, r.id)] })

/-- Modelled from the spec: `Driver.get_conflicting_rides` — the ids of the
driver's committed rides whose interval overlaps the given ride's. -/
def Driver.get_conflicting_rides (d : Driver) (r : Ride) : List String :=
  (d.unavailable_timings.filter
      (fun t => overlaps t.1 t.2.1 r.ride_start r.ride_end)).map (fun t => t.2.2)

/-- Modelled from the spec: `Ride.assign_driver` — sets the back-reference
to the assigned driver; the spec's invariant "`possible_drivers` is empty
whenever `assigned_driver` is set" requires the setter to clear the
candidate list. -/
def Ride.assign_driver (r : Ride) (d : Driver) : Ride :=
  { r with assigned_driver := some d.id, possible_drivers := [] }

/-! ## Flow network

Nodes of the network built by `MatchMaker.match`.  The Python code keys the
graph dict with the strings `'s'`, `'t'`, `'d' + str i`, `'r' + str j`;
these are in bijection with the constructors below (`int(key[1:])`
recovering the index). -/

/-- Node identifiers of the flow network: source, sink, i-th driver, j-th
unmatched ride. -/
inductive Node where
  | S : Node
  | T : Node
  | D : Nat → Node
  | R : Nat → Node
deriving DecidableEq, Repr

/-- `MatchMaker._is_suitable` (lines 243-249): a driver suits a ride iff
the distance between the driver's address and the ride's pickup address is
strictly below the limit and the pair of ids has not been rejected. -/
def is_suitable (env : Env) (rejected : List (String × String))
    (dist_limit : Int) (driver : Driver) (ride : Ride) : Bool :=
  decide (env.dist driver.address ride.pickup_address < dist_limit) &&
    decide ((driver.id, ride.id) ∉ rejected)

/-- The capacitated graph built by `MatchMaker.match` (lines 294-310):
source to each driver with the per-driver cap, driver `i` to unmatched ride
`j` with capacity 1 exactly when `_is_suitable` holds, each ride to the
sink with the per-ride cap.  `none` is an absent dict key. -/
def build_graph (env : Env) (drivers : List Driver) (unmatched : List Ride)
    (rejected : List (String × String)) (dist_limit : Int)
    (cap_driver cap_ride : Nat) : Node → Node → Option Nat :=
  fun u v =>
    match u, v with
    | Node.S, Node.D i => if i < drivers.length then some cap_driver else none
    | Node.D i, Node.R j =>
      match drivers[i]?, unmatched[j]? with
      | some d, some r => if is_suitable env rejected dist_limit d r then some 1 else none
      | _, _ => none
    | Node.R j, Node.T => if j < unmatched.length then some cap_ride else none
    | _, _ => none

/-- Forward capacity of an edge as an integer (an absent key is capacity 0). -/
def capOf (g : Node → Node → Option Nat) (u v : Node) : Int :=
  ((g u v).getD 0 : Nat)

/-- A flow is kept skew-symmetrically: `f u v` is the net flow pushed from
`u` to `v` (so `f v u = - f u v`).  The residual forward capacity of an
edge is then `capOf g u v - f u v`, exactly the value the solver stores in
the mutated dict. -/
abbrev Flow := Node → Node → Int

/-- Push `b` units across the single edge `(x, y)`: the forward entry grows
by `b` and the reverse entry shrinks by `b` (lazily created reverse
residuals in the Python dict). -/
def addFlow (f : Flow) (x y : Node) (b : Int) : Flow :=
  if x = y then f
  else fun u v =>
    if u = x ∧ v = y then f u v + b
    else if u = y ∧ v = x then f u v - b
    else f u v

/-- The list of nodes of the network with `n` drivers and `m` unmatched
rides. -/
def nodeUniv (n m : Nat) : List Node :=
  Node.S :: Node.T :: ((List.range n).map Node.D ++ (List.range m).map Node.R)

/-- First `some` produced by `fn` along the list. -/
def firstSome (fn : α → Option β) : List α → Option β
  | [] => none
  | x :: xs =>
    match fn x with
    | some y => some y
    | none => firstSome fn xs

/-- Modelled from the spec: depth-first search for an augmenting path (the
path-finding inside `ford_fulkerson` of `server/max_flow.py`, not among
the sources; the spec leaves the traversal order free).  Returns a
source-to-sink node list every edge of which has strictly positive residual
capacity, avoiding revisits. -/
def findPathAux (res : Node → Node → Int) (univ : List Node) :
    Nat → List Node → Node → Option (List Node)
  | 0, _, _ => none
  | fuel + 1, visited, u =>
    if u = Node.T then some [u]
    else
      firstSome (fun v =>
        if v ∈ u :: visited then none
        else if 0 < res u v then
          (findPathAux res univ fuel (u :: visited) v).map (fun p => u :: p)
        else none) univ

/-- Bottleneck (minimum residual capacity) along the consecutive edges of a
path. -/
def bottleneck (res : Node → Node → Int) : List Node → Int
  | x :: y :: rest =>
    match rest with
    | [] => res x y
    | _ :: _ => min (res x y) (bottleneck res (y :: rest))
  | _ => 0

/-- Push `b` units along every consecutive edge of a path. -/
def augmentPath (b : Int) : Flow → List Node → Flow
  | f, x :: y :: rest => augmentPath b (addFlow f x y b) (y :: rest)
  | f, _ => f

/-- Modelled from the spec: the main loop of `ford_fulkerson`
(`server/max_flow.py`, not among the sources) — repeatedly find an
augmenting path of strictly positive residual capacities and push its
bottleneck, until no path remains; `fuel` bounds the number of
augmentations (each pushes at least one unit, so total source capacity
plus one suffices). -/
def ffLoop (cap : Node → Node → Int) (univ : List Node) :
    Nat → Flow → Flow
  | 0, f => f
  | fuel + 1, f =>
    match findPathAux (fun u v => cap u v - f u v) univ (univ.length + 1) [] Node.S with
    | none => f
    | some p =>
      ffLoop cap univ fuel
        (augmentPath (bottleneck (fun u v => cap u v - f u v) p) f p)

/-- Upper bound on the number of augmentations: total capacity out of the
source, plus one. -/
def source_fuel (g : Node → Node → Option Nat) (univ : List Node) : Nat :=
  (univ.map (fun v => (g Node.S v).getD 0)).sum + 1

/-- Modelled from the spec: `ford_fulkerson` of `server/max_flow.py` (not
among the sources), started from the zero flow. -/
def ford_fulkerson (g : Node → Node → Option Nat) (univ : List Node) : Flow :=
  ffLoop (capOf g) univ (source_fuel g univ) (fun _ _ => 0)

/-- `_interpret_matches`' saturation test (line 258): the dict entry for
driver `i` and ride `j` exists and its residual value is `0`. -/
def saturated_edge (g : Node → Node → Option Nat) (f : Flow) (i j : Nat) : Bool :=
  match g (Node.D i) (Node.R j) with
  | some c => decide ((c : Int) - f (Node.D i) (Node.R j) = 0)
  | none => false

/-- The candidate tuple driver `i` contributes to unmatched ride `j`, when
its edge is saturated: the driver reference, the computed distance and the
driver's conflicting rides (`_interpret_matches`, lines 258-263). -/
def cand_entry (env : Env) (drivers : List Driver) (unmatched : List Ride)
    (g : Node → Node → Option Nat) (f : Flow) (j i : Nat) : Option PDEntry :=
  match drivers[i]?, unmatched[j]? with
  | some d, some r =>
    if saturated_edge g f i j then
      some (d.id, env.dist d.address r.pickup_address, d.get_conflicting_rides r)
    else none
  | _, _ => none

/-- The candidate tuples appended to unmatched ride `j` by
`_interpret_matches` (lines 255-267), in driver-index order: one entry per
saturated driver-to-ride edge. -/
def ride_candidates (env : Env) (drivers : List Driver) (unmatched : List Ride)
    (g : Node → Node → Option Nat) (f : Flow) (j : Nat) : List PDEntry :=
  (List.range drivers.length).filterMap (cand_entry env drivers unmatched g f j)

/-- `_filter_unmatched_rides` (lines 232-241): the rides considered by a
matching run are exactly those with no assigned driver, in list order. -/
def filter_unmatched_rides (st : MatchMaker) : List Ride :=
  st.rides.filter (fun r => r.assigned_driver = none)

/-- Write the new candidate list of the `j`-th unmatched ride back into the
full ride list (`_filter_unmatched_rides` clears the list of every
unassigned ride and `_interpret_matches` appends to it through the shared
reference, so the net effect is that the `j`-th unassigned ride's
`possible_drivers` becomes `pd j` and assigned rides are untouched). -/
def set_possible_drivers (pd : Nat → List PDEntry) : Nat → List Ride → List Ride
  | _, [] => []
  | j, r :: rest =>
    if r.assigned_driver = none then
      { r with possible_drivers := pd j } :: set_possible_drivers pd (j + 1) rest
    else
      r :: set_possible_drivers pd j rest

/-- Outcome of one `MatchMaker.match` invocation: the new state, whether
the evaluation completed within the given recursion fuel (the Python code
has no fuel; a `completed = true` result is exactly what the real code
produces, while `completed = false` marks a truncated divergent run), and
whether the pipeline ran at all (`false` models the
`'matching algorithm not run'` early return). -/
structure RunResult where
  state : MatchMaker
  completed : Bool
  ranPipeline : Bool
deriving DecidableEq, Repr

/-- The solved flow of one pipeline pass over the current state. -/
def match_flow (env : Env) (max_dist : Int) (cap_driver cap_ride : Nat)
    (st : MatchMaker) : Flow :=
  ford_fulkerson
    (build_graph env st.drivers (filter_unmatched_rides st) st.rejected
      max_dist cap_driver cap_ride)
    (nodeUniv st.drivers.length (filter_unmatched_rides st).length)

/-- The candidate tuples of the `j`-th unmatched ride after one pipeline
pass. -/
def match_cands (env : Env) (max_dist : Int) (cap_driver cap_ride : Nat)
    (st : MatchMaker) (j : Nat) : List PDEntry :=
  ride_candidates env st.drivers (filter_unmatched_rides st)
    (build_graph env st.drivers (filter_unmatched_rides st) st.rejected
      max_dist cap_driver cap_ride)
    (match_flow env max_dist cap_driver cap_ride st) j

/-- The candidate list of the `j`-th unmatched ride, sorted ascending by
distance (`possible_drivers.sort(key=lambda x: x[1])`). -/
def match_sorted (env : Env) (max_dist : Int) (cap_driver cap_ride : Nat)
    (st : MatchMaker) (j : Nat) : List PDEntry :=
  List.insertionSort (fun a b => a.2.1 ≤ b.2.1)
    (match_cands env max_dist cap_driver cap_ride st j)

/-- One pipeline pass (build, solve, interpret), without the retry step:
every unassigned ride's candidate list is replaced by the freshly computed
one; everything else is untouched. -/
def pipeline_once (env : Env) (max_dist : Int) (cap_driver cap_ride : Nat)
    (st : MatchMaker) : MatchMaker :=
  { st with rides :=
      set_possible_drivers (match_sorted env max_dist cap_driver cap_ride st) 0 st.rides }

/-- `len(self.matches)` after one pass: the number of unmatched rides that
received at least one suggestion. -/
def match_matched (env : Env) (max_dist : Int) (cap_driver cap_ride : Nat)
    (st : MatchMaker) : Nat :=
  ((List.range (filter_unmatched_rides st).length).filter
    (fun j => !(match_cands env max_dist cap_driver cap_ride st j).isEmpty)).length

/-- `MatchMaker.match` together with `_interpret_matches` (lines 251-314):
skip when nothing changed and not forced; otherwise build the network over
the unmatched rides, solve it, write the sorted candidate lists back, and
when fewer rides got a suggestion than there are unmatched rides (at most
200 of them) and the distance limit is below 80, re-run the pipeline with
the distance doubled (`ceil(d * 2) = 2 * d` on integers) and default caps,
forced.  Afterwards the `changed` flag is cleared. -/
def run_match (env : Env) :
    Nat → Int → Nat → Nat → Bool → MatchMaker → RunResult
  | 0, _, _, _, _, st => ⟨st, false, true⟩
  | fuel + 1, max_dist, cap_driver, cap_ride, force, st =>
    if st.changed = false ∧ force = false then ⟨st, true, false⟩
    else
      if match_matched env max_dist cap_driver cap_ride st
          < (filter_unmatched_rides st).length
          ∧ (filter_unmatched_rides st).length ≤ 200 ∧ max_dist < 80 then
        ⟨{ (run_match env fuel (2 * max_dist) 200 5 true
              (pipeline_once env max_dist cap_driver cap_ride st)).state
            with changed := false },
          (run_match env fuel (2 * max_dist) 200 5 true
            (pipeline_once env max_dist cap_driver cap_ride st)).completed, true⟩
      else
        ⟨{ pipeline_once env max_dist cap_driver cap_ride st with changed := false },
          true, true⟩

/-! ## Mutating operations and commit -/

/-- `_remove_old_rides` (lines 107-113): keep exactly the rides whose end
lies less than 2 days before `now` (`timedelta.days` is floor division of
the elapsed seconds by 86400). -/
def remove_old_rides (now : Int) (st : MatchMaker) : MatchMaker :=
  { st with rides := st.rides.filter (fun r => (now - r.ride_end) / 86400 < 2) }

/-- First-seen-wins de-duplication by key, as in `_make_unique`. -/
def dedupKeepFirst (key : α → String) : List α → List String → List α
  | [], _ => []
  | x :: xs, seen =>
    if key x ∈ seen then dedupKeepFirst key xs seen
    else x :: dedupKeepFirst key xs (key x :: seen)

/-- `_make_unique` (lines 83-105): de-duplicate rides and drivers by id
keeping the first occurrence, then drop every rejected pair whose ride id
no longer occurs. -/
def make_unique (st : MatchMaker) : MatchMaker :=
  let rides := dedupKeepFirst (fun r => r.id) st.rides []
  let drivers := dedupKeepFirst (fun d => d.id) st.drivers []
  let ids := rides.map (fun r => r.id)
  { st with
    rides := rides
    drivers := drivers
    rejected := st.rejected.filter (fun p => p.2 ∈ ids) }

/-- Fuel used for the `match()` call inside `_commit_changes`; commit
matches at distance 10, which widens at most 3 times, so 8 is ample. -/
def commit_fuel : Nat := 8

/-- `_commit_changes` (lines 67-81): set `changed`, prune old rides,
de-duplicate, run matching with default parameters, persist (persistence
is outside the engine's state and not modelled). -/
def commit_changes (env : Env) (now : Int) (st : MatchMaker) : MatchMaker :=
  (run_match env commit_fuel 10 200 5 false
    (make_unique (remove_old_rides now { st with changed := true }))).state

/-- Replace the first element satisfying `p` by `x`. -/
def replaceFirst (p : α → Bool) (x : α) : List α → List α
  | [] => []
  | y :: ys => if p y then x :: ys else y :: replaceFirst p x ys

/-- `delete_ride` (lines 115-124): drop every ride with the id, drop the
matching committed intervals from every driver, commit. -/
def delete_ride (env : Env) (now : Int) (ride_id : String) (st : MatchMaker) : MatchMaker :=
  commit_changes env now
    { st with
      rides := st.rides.filter (fun r => r.id ≠ ride_id)
      drivers := st.drivers.map (fun d =>
        { d with unavailable_timings :=
            d.unavailable_timings.filter (fun t => t.2.2 ≠ ride_id) }) }

/-- `delete_driver` (lines 126-135): drop every driver with the id, clear
the assignment of every ride assigned to it, commit. -/
def delete_driver (env : Env) (now : Int) (driver_id : String) (st : MatchMaker) : MatchMaker :=
  commit_changes env now
    { st with
      drivers := st.drivers.filter (fun d => d.id ≠ driver_id)
      rides := st.rides.map (fun r =>
        if r.assigned_driver = some driver_id then { r with assigned_driver := none } else r) }

/-- Raw ride data as ingested (batch import or request payload); new rides
start unassigned with an empty candidate list (modelled from the spec: the
constructors live in the missing `server/objects/` modules). -/
structure RideInput where
  id : String
  pickup_address : String
  ride_start : Int
  ride_end : Int
deriving DecidableEq, Repr

/-- Build a fresh `Ride` from ingested data. -/
def mkRide (x : RideInput) : Ride :=
  { id := x.id, pickup_address := x.pickup_address,
    ride_start := x.ride_start, ride_end := x.ride_end }

/-- Raw driver data as ingested; new drivers start with no committed
intervals. -/
structure DriverInput where
  id : String
  address : String
deriving DecidableEq, Repr

/-- Build a fresh `Driver` from ingested data. -/
def mkDriver (x : DriverInput) : Driver :=
  { id := x.id, address := x.address }

/-- `add_rides` / `add_rides_by_csv` (lines 137-159): extend and commit. -/
def add_rides (env : Env) (now : Int) (xs : List RideInput) (st : MatchMaker) : MatchMaker :=
  commit_changes env now { st with rides := st.rides ++ xs.map mkRide }

/-- `add_drivers` / `add_drivers_by_csv` (lines 145-167): extend and commit. -/
def add_drivers (env : Env) (now : Int) (xs : List DriverInput) (st : MatchMaker) : MatchMaker :=
  commit_changes env now { st with drivers := st.drivers ++ xs.map mkDriver }

/-- `assign_driver_to_ride` (lines 189-204): look up both ids (first match
each); on a missing entity or a time conflict return `false` with the state
untouched; otherwise record the interval on the driver, set the ride's
assignment, commit and return `true`. -/
def assign_driver_to_ride (env : Env) (now : Int) (driver_id ride_id : String)
    (st : MatchMaker) : Bool × MatchMaker :=
  match st.drivers.find? (fun d => d.id = driver_id),
        st.rides.find? (fun r => r.id = ride_id) with
  | some driver, some ride =>
    match driver.add_accepted_ride ride with
    | (true, driver') =>
      let ride' := ride.assign_driver driver'
      let st' : MatchMaker :=
        { st with
          drivers := replaceFirst (fun d => d.id = driver_id) driver' st.drivers
          rides := replaceFirst (fun r => r.id = ride_id) ride' st.rides }
      (true, commit_changes env now st')
    | (false, _) => (false, st)
  | _, _ => (false, st)

/-- `remove_driver_from_ride` (lines 206-221): succeeds only when the ride
is currently assigned to exactly that driver; then drops the matching
interval from the driver, clears the assignment and commits. -/
def remove_driver_from_ride (env : Env) (now : Int) (driver_id ride_id : String)
    (st : MatchMaker) : Bool × MatchMaker :=
  match st.drivers.find? (fun d => d.id = driver_id),
        st.rides.find? (fun r => r.id = ride_id) with
  | some driver, some ride =>
    if ride.assigned_driver = some driver.id then
      let st' : MatchMaker :=
        { st with
          drivers := replaceFirst (fun d => d.id = driver_id)
            { driver with unavailable_timings :=
                driver.unavailable_timings.filter (fun t => t.2.2 ≠ ride_id) } st.drivers
          rides := replaceFirst (fun r => r.id = ride_id)
            { ride with assigned_driver := none } st.rides }
      (true, commit_changes env now st')
    else (false, st)
  | _, _ => (false, st)

/-- `add_rejected_pairing` (lines 223-230): add the pair to the rejected
set and commit. -/
def add_rejected_pairing (env : Env) (now : Int) (driver_id ride_id : String)
    (st : MatchMaker) : MatchMaker :=
  commit_changes env now { st with rejected := st.rejected.insert (driver_id, ride_id) }

/-- The operator surface: every mutating action of the engine, with the
wall-clock instant at which it runs (used by retention pruning). -/
inductive Op where
  | deleteRide (now : Int) (ride_id : String)
  | deleteDriver (now : Int) (driver_id : String)
  | addRides (now : Int) (xs : List RideInput)
  | addDrivers (now : Int) (xs : List DriverInput)
  | assign (now : Int) (driver_id ride_id : String)
  | unassign (now : Int) (driver_id ride_id : String)
  | reject (now : Int) (driver_id ride_id : String)
  | runMatch (max_dist : Int) (cap_driver cap_ride : Nat) (force : Bool)
deriving DecidableEq, Repr

/-- Apply one operator action to the state. -/
def applyOp (env : Env) (op : Op) (st : MatchMaker) : MatchMaker :=
  match op with
  | Op.deleteRide now ride_id => delete_ride env now ride_id st
  | Op.deleteDriver now driver_id => delete_driver env now driver_id st
  | Op.addRides now xs => add_rides env now xs st
  | Op.addDrivers now xs => add_drivers env now xs st
  | Op.assign now d r => (assign_driver_to_ride env now d r st).2
  | Op.unassign now d r => (remove_driver_from_ride env now d r st).2
  | Op.reject now d r => add_rejected_pairing env now d r st
  | Op.runMatch max_dist c1 c2 force =>
    (run_match env (commit_fuel + max_dist.toNat) max_dist c1 c2 force st).state

/-- Apply a sequence of operator actions, oldest first. -/
def applyOps (env : Env) (ops : List Op) (st : MatchMaker) : MatchMaker :=
  ops.foldl (fun s op => applyOp env op s) st

/-! ## Radius widening bound -/

/-- Number of doublings needed to push the distance threshold to at least
80, computed with enough iterations for any positive start (7 doublings
from 1 already reach 128); this is exactly the ceiling of the base-2
logarithm of `80 / t` for `1 ≤ t < 80`. -/
def widen_steps_go : Nat → Int → Nat
  | 0, _ => 0
  | fuel + 1, t => if 80 ≤ t then 0 else widen_steps_go fuel (2 * t) + 1

/-- The widening-iteration bound for a starting threshold. -/
def widen_steps (t : Int) : Nat := widen_steps_go 8 t

/-- A matching invocation that exhausts every recursion fuel: the Python
recursion at this state and threshold never returns. -/
def matchNeverCompletes (env : Env) (t : Int) (st : MatchMaker) : Prop :=
  ∀ fuel, (run_match env fuel t 200 5 true st).completed = false

/-! ## Persistence (`server/mongo_helpers.py`) -/

/-- A persisted snapshot: the three pickled collections of
`_commit_changes`. -/
structure Snapshot where
  rides : List Ride := []
  drivers : List Driver := []
  rejected : List (String × String) := []
deriving DecidableEq, Repr

/-- The document of a collection with the greatest `_id` (documents are
keyed by a totally ordered `_id`; ties keep the earlier document). -/
def maxDoc : List (Int × α) → Option (Int × α)
  | [] => none
  | d :: rest =>
    match maxDoc rest with
    | none => some d
    | some m => some (if d.1 < m.1 then m else d)

/-- `get_latest` (`server/mongo_helpers.py`, lines 64-74): on a non-empty
collection, return the document with the greatest `_id` and delete every
document with a different `_id`; on an empty collection return nothing and
leave the collection alone (the deletion line is never reached). -/
def get_latest (docs : List (Int × α)) : Option (Int × α) × List (Int × α) :=
  match maxDoc docs with
  | none => (none, docs)
  | some m => (some m, docs.filter (fun d => d.1 = m.1))

/-- `MatchMaker.__init__` (lines 36-52): load the latest snapshot when one
exists (destructively, through `get_latest`), else start empty. -/
def matchmaker_init (store : List (Int × Snapshot)) :
    MatchMaker × List (Int × Snapshot) :=
  match get_latest store with
  | (some doc, store') =>
    ({ rides := doc.2.rides
       drivers := doc.2.drivers
       changed := false
       rejected := doc.2.rejected }, store')
  | (none, store') => ({}, store')

/-! ## Flow validity

The solver maintains a valid flow: skew-symmetric, respecting every
capacity, and conserving flow at every node other than source and sink.
Everything the cap invariants of the spec need follows from validity. -/

/-- Net outflow of a node, summed over the node universe. -/
def excess (univ : List Node) (f : Flow) (u : Node) : Int :=
  (univ.map (fun v => f u v)).sum

/-- Skew symmetry: the net flow from `u` to `v` is the negation of the net
flow from `v` to `u`. -/
def Skew (f : Flow) : Prop := ∀ u v, f u v = - f v u

/-- Consecutive edges of a path. -/
def adjPairs : List Node → List (Node × Node)
  | x :: y :: rest => (x, y) :: adjPairs (y :: rest)
  | _ => []

/-- Validity of a flow over a capacity function and a node universe. -/
structure ValidFlow (cap : Node → Node → Int) (univ : List Node) (f : Flow) : Prop where
  skew : Skew f
  le_cap : ∀ u v, f u v ≤ cap u v
  conserve : ∀ u ∈ univ, u ≠ Node.S → u ≠ Node.T → excess univ f u = 0

/-! ## One pipeline pass -/

/-- Everything of a ride except its candidate list: a matching run rewrites
only `possible_drivers`. -/
def skel (r : Ride) : String × String × Int × Int × Option String :=
  (r.id, r.pickup_address, r.ride_start, r.ride_end, r.assigned_driver)

/-- The spec's data-model invariant: an assigned ride has no candidate
list. -/
def AssignedEmpty (st : MatchMaker) : Prop :=
  ∀ r ∈ st.rides, r.assigned_driver ≠ none → r.possible_drivers = []

/-- How many times driver id `did` occurs as a candidate across all rides'
`possible_drivers` lists. -/
def appearances (rides : List Ride) (did : String) : Nat :=
  (rides.map (fun r => (r.possible_drivers.filter (fun e => decide (e.1 = did))).length)).sum

/-- The pair `(did, rid)` is nowhere suggested: no ride with id `rid`
carries a candidate entry for driver id `did`. -/
def ExcludedFrom (st : MatchMaker) (did rid : String) : Prop :=
  ∀ r ∈ st.rides, r.id = rid → ∀ e ∈ r.possible_drivers, e.1 ≠ did

/-! ## Commit bookkeeping -/

/-- The ids of the retained rides. -/
def rideIds (st : MatchMaker) : List String := st.rides.map (fun r => r.id)

/-! ## Concrete instances used by the witnesses and counterexamples -/

/-- An environment in which every distance lookup returns 0. -/
def envZero : Env := ⟨fun _ _ => 0⟩

/-- An environment in which every distance lookup returns 5. -/
def envFive : Env := ⟨fun _ _ => 5⟩

def rideZero : Ride := { id := "r0", pickup_address := "p", ride_start := 0, ride_end := 0 }

def stZero : MatchMaker := { rides := [rideZero], drivers := [], changed := true }

def driverA : Driver := { id := "a", address := "x" }

def driverB : Driver := { id := "b", address := "y" }

def rideC : Ride := { id := "rc", pickup_address := "q", ride_start := 0, ride_end := 0 }

def stWide : MatchMaker :=
  { rides := [rideC], drivers := [driverA, driverB], changed := true }

def stNoop : MatchMaker := { rides := [rideZero], drivers := [driverA] }

def rideR1 : Ride := { id := "r1", pickup_address := "p", ride_start := 0, ride_end := 0 }

def stRej : MatchMaker := { rides := [rideR1], rejected := [("d9", "r1")] }

def rideP : Ride := { id := "rX", pickup_address := "p1", ride_start := 0, ride_end := 1000000 }

def rideQ : Ride := { id := "rX", pickup_address := "p2", ride_start := 0, ride_end := 1000000 }

def stDup : MatchMaker := { rides := [rideP, rideQ] }

def driverFree : Driver := { id := "d1", address := "ad" }

def rideOpen : Ride := { id := "ro", pickup_address := "pp", ride_start := 100, ride_end := 200 }

def stAssign : MatchMaker := { rides := [rideOpen], drivers := [driverFree] }

def docsW : List (Int × String) := [(1, "a"), (3, "b"), (2, "c")]

theorem sum_map_congr {l : List α} {g h : α → Int} (hgh : ∀ v ∈ l, g v = h v) :
    (l.map g).sum = (l.map h).sum := by
  induction l with
  | nil => rfl
  | cons x xs ih =>
    simp only [List.map_cons, List.sum_cons]
    rw [hgh x (by simp), ih (fun v hv => hgh v (by simp [hv]))]

theorem sum_map_update_add {l : List α} {g h : α → Int} {y : α} {b : Int}
    (hnd : l.Nodup) (hy : y ∈ l) (hoth : ∀ v ∈ l, v ≠ y → g v = h v)
    (hyv : g y = h y + b) :
    (l.map g).sum = (l.map h).sum + b := by
  induction l with
  | nil => cases hy
  | cons x xs ih =>
    rcases List.mem_cons.mp hy with rfl | hy'
    · simp only [List.map_cons, List.sum_cons]
      have hrest : ∀ v ∈ xs, g v = h v := by
        intro v hv
        exact hoth v (by simp [hv]) (fun hEq => (List.nodup_cons.mp hnd).1 (hEq ▸ hv))
      rw [hyv, sum_map_congr hrest]
      ring
    · have hxy : x ≠ y := fun hEq => (List.nodup_cons.mp hnd).1 (hEq ▸ hy')
      simp only [List.map_cons, List.sum_cons]
      rw [hoth x (by simp) hxy,
        ih (List.nodup_cons.mp hnd).2 hy' (fun v hv hvne => hoth v (by simp [hv]) hvne)]
      ring

theorem addFlow_apply_ne {f : Flow} {x y u v : Node} {b : Int}
    (h1 : ¬(u = x ∧ v = y)) (h2 : ¬(u = y ∧ v = x)) :
    addFlow f x y b u v = f u v := by
  by_cases hxy : x = y
  · simp [addFlow, hxy]
  · simp only [addFlow, if_neg hxy]
    rw [if_neg h1, if_neg h2]

theorem addFlow_apply_fwd {f : Flow} {x y : Node} {b : Int} (hxy : x ≠ y) :
    addFlow f x y b x y = f x y + b := by
  simp [addFlow, hxy]

theorem addFlow_apply_bwd {f : Flow} {x y : Node} {b : Int} (hxy : x ≠ y) :
    addFlow f x y b y x = f y x - b := by
  simp [addFlow, hxy, Ne.symm hxy]

theorem skew_addFlow {f : Flow} {x y : Node} {b : Int} (hf : Skew f) :
    Skew (addFlow f x y b) := by
  by_cases hxy : x = y
  · simpa [addFlow, hxy] using hf
  intro u v
  by_cases h1 : u = x ∧ v = y
  · obtain ⟨rfl, rfl⟩ := h1
    rw [addFlow_apply_fwd hxy, addFlow_apply_bwd hxy, hf u v]
    ring
  by_cases h2 : u = y ∧ v = x
  · obtain ⟨rfl, rfl⟩ := h2
    rw [addFlow_apply_bwd hxy, addFlow_apply_fwd hxy, hf u v]
    ring
  · rw [addFlow_apply_ne h1 h2,
      addFlow_apply_ne (fun h => h2 ⟨h.2, h.1⟩) (fun h => h1 ⟨h.2, h.1⟩)]
    exact hf u v

theorem cap_addFlow {cap : Node → Node → Int} {f : Flow}
    (hf : ∀ u v, f u v ≤ cap u v) {x y : Node} {b : Int} (hb : 0 ≤ b)
    (hres : f x y + b ≤ cap x y) :
    ∀ u v, addFlow f x y b u v ≤ cap u v := by
  intro u v
  by_cases hxy : x = y
  · simpa [addFlow, hxy] using hf u v
  by_cases h1 : u = x ∧ v = y
  · obtain ⟨rfl, rfl⟩ := h1
    rw [addFlow_apply_fwd hxy]
    exact hres
  by_cases h2 : u = y ∧ v = x
  · obtain ⟨rfl, rfl⟩ := h2
    rw [addFlow_apply_bwd hxy]
    have := hf u v
    omega
  · rw [addFlow_apply_ne h1 h2]
    exact hf u v

theorem excess_addFlow {univ : List Node} (hnd : univ.Nodup) {x y : Node}
    (hx : x ∈ univ) (hy : y ∈ univ) (f : Flow) (b : Int) (u : Node) :
    excess univ (addFlow f x y b) u
      = excess univ f u + (if u = x then b else 0) - (if u = y then b else 0) := by
  by_cases hxy : x = y
  · subst hxy
    by_cases hux : u = x <;> simp [addFlow, hux, excess]
  by_cases hux : u = x
  · subst hux
    unfold excess
    rw [sum_map_update_add hnd hy
      (fun v _ hv => addFlow_apply_ne (fun h => hv h.2) (fun h => hxy h.1))
      (addFlow_apply_fwd hxy)]
    simp [hxy]
  by_cases huy : u = y
  · subst huy
    unfold excess
    rw [sum_map_update_add (b := -b) hnd hx
      (fun v _ hv => addFlow_apply_ne (fun h => hxy h.1.symm) (fun h => hv h.2))
      (by rw [addFlow_apply_bwd hxy]; ring)]
    simp [fun h => hxy (Eq.symm h), hux]
    ring
  · unfold excess
    rw [sum_map_congr
      (fun v _ => addFlow_apply_ne (fun h => hux h.1) (fun h => huy h.1))]
    simp [hux, huy]

theorem adjPairs_mem : ∀ {p : List Node} {pr : Node × Node},
    pr ∈ adjPairs p → pr.1 ∈ p ∧ pr.2 ∈ p
  | [], _, h => by cases h
  | [_], _, h => by cases h
  | x :: y :: rest, pr, h => by
    rcases List.mem_cons.mp h with rfl | h'
    · exact ⟨by simp, by simp⟩
    · have := adjPairs_mem h'
      exact ⟨List.mem_cons_of_mem x this.1, List.mem_cons_of_mem x this.2⟩

theorem bottleneck_le {res : Node → Node → Int} : ∀ {p : List Node} {pr : Node × Node},
    pr ∈ adjPairs p → bottleneck res p ≤ res pr.1 pr.2
  | [], _, h => by cases h
  | [_], _, h => by cases h
  | [x, y], pr, h => by
    rcases List.mem_cons.mp h with rfl | h'
    · simp [bottleneck]
    · cases h'
  | x :: y :: z :: rest, pr, h => by
    rcases List.mem_cons.mp h with rfl | h'
    · exact min_le_left _ _
    · exact le_trans (min_le_right _ _) (bottleneck_le h')

theorem bottleneck_pos {res : Node → Node → Int} : ∀ {p : List Node},
    (∀ pr ∈ adjPairs p, 0 < res pr.1 pr.2) → 2 ≤ p.length → 0 < bottleneck res p
  | [], _, hl => by simp at hl
  | [_], _, hl => by simp at hl
  | [x, y], h, _ => by simpa [bottleneck] using h (x, y) (by simp [adjPairs])
  | x :: y :: z :: rest, h, _ => by
    refine lt_min (h (x, y) (by simp [adjPairs])) (bottleneck_pos ?_ (by simp))
    intro pr hpr
    exact h pr (List.mem_cons_of_mem _ hpr)

theorem augmentPath_excess {univ : List Node} (hnd : univ.Nodup) {b : Int} :
    ∀ (p : List Node) (f : Flow), (∀ x ∈ p, x ∈ univ) → ∀ u,
      excess univ (augmentPath b f p) u
        = excess univ f u + (if p.head? = some u then b else 0)
            - (if p.getLast? = some u then b else 0)
  | [], f, _, u => by simp [augmentPath]
  | [x], f, _, u => by
    by_cases hux : x = u <;> simp [augmentPath, hux]
  | x :: y :: rest, f, hmem, u => by
    have hx : x ∈ univ := hmem x (by simp)
    have hy : y ∈ univ := hmem y (by simp)
    have hmem' : ∀ z ∈ y :: rest, z ∈ univ := fun z hz =>
      hmem z (List.mem_cons_of_mem x hz)
    show excess univ (augmentPath b (addFlow f x y b) (y :: rest)) u = _
    rw [augmentPath_excess hnd (y :: rest) (addFlow f x y b) hmem' u,
      excess_addFlow hnd hx hy f b u, List.getLast?_cons_cons]
    simp only [List.head?_cons, Option.some.injEq, @eq_comm _ x u, @eq_comm _ y u]
    by_cases hux : u = x <;> by_cases huy : u = y <;> simp [hux, huy]

theorem augmentPath_skew_cap {cap : Node → Node → Int} {b : Int} (hb : 0 ≤ b) :
    ∀ (p : List Node) (f : Flow), Skew f → (∀ u v, f u v ≤ cap u v) → p.Nodup →
      (∀ pr ∈ adjPairs p, f pr.1 pr.2 + b ≤ cap pr.1 pr.2) →
      Skew (augmentPath b f p) ∧ ∀ u v, augmentPath b f p u v ≤ cap u v
  | [], f, hsk, hcap, _, _ => ⟨hsk, hcap⟩
  | [_], f, hsk, hcap, _, _ => ⟨hsk, hcap⟩
  | x :: y :: rest, f, hsk, hcap, hnd, hres => by
    have hxny : x ∉ y :: rest := (List.nodup_cons.mp hnd).1
    show Skew (augmentPath b (addFlow f x y b) (y :: rest)) ∧ _
    refine augmentPath_skew_cap hb (y :: rest) (addFlow f x y b)
      (skew_addFlow hsk)
      (cap_addFlow hcap hb (hres (x, y) (by simp [adjPairs])))
      (List.nodup_cons.mp hnd).2 ?_
    intro pr hpr
    have hm := adjPairs_mem hpr
    have h1 : pr.1 ≠ x := fun hEq => hxny (hEq ▸ hm.1)
    have h2 : pr.2 ≠ x := fun hEq => hxny (hEq ▸ hm.2)
    rw [addFlow_apply_ne (fun h => h1 h.1) (fun h => h2 h.2)]
    exact hres pr (List.mem_cons_of_mem _ hpr)

theorem firstSome_some {fn : α → Option β} : ∀ {l : List α} {y : β},
    firstSome fn l = some y → ∃ v ∈ l, fn v = some y
  | [], _, h => by cases h
  | x :: xs, y, h => by
    unfold firstSome at h
    cases hfx : fn x with
    | some z =>
      rw [hfx] at h
      exact ⟨x, by simp, hfx.trans h⟩
    | none =>
      rw [hfx] at h
      obtain ⟨v, hv, hfv⟩ := firstSome_some h
      exact ⟨v, List.mem_cons_of_mem x hv, hfv⟩

theorem findPathAux_spec (res : Node → Node → Int) (univ : List Node) :
    ∀ (fuel : Nat) (visited : List Node) (u : Node) (p : List Node),
      u ∉ visited → u ∈ univ →
      findPathAux res univ fuel visited u = some p →
      p.head? = some u ∧ p.getLast? = some Node.T ∧
        (∀ pr ∈ adjPairs p, 0 < res pr.1 pr.2) ∧ p.Nodup ∧
        (∀ x ∈ p, x ∉ visited) ∧ (∀ x ∈ p, x ∈ univ) := by
  intro fuel
  induction fuel with
  | zero => intro visited u p _ _ h; cases h
  | succ fuel ih =>
    intro visited u p hvis huniv h
    unfold findPathAux at h
    by_cases hT : u = Node.T
    · rw [if_pos hT] at h
      cases h
      refine ⟨rfl, by simp [hT], by simp [adjPairs], by simp, ?_, ?_⟩
      · intro x hx
        rw [List.mem_singleton.mp hx]
        exact hvis
      · intro x hx
        rw [List.mem_singleton.mp hx]
        exact huniv
    · rw [if_neg hT] at h
      obtain ⟨v, hvuniv, hfv⟩ := firstSome_some h
      by_cases hvin : v ∈ u :: visited
      · rw [if_pos hvin] at hfv; cases hfv
      rw [if_neg hvin] at hfv
      by_cases hresv : 0 < res u v
      · rw [if_pos hresv] at hfv
        obtain ⟨p', hp', rfl⟩ := Option.map_eq_some'.mp hfv
        obtain ⟨hhead, hlast, hadj, hnd, hvis', huniv'⟩ :=
          ih (u :: visited) v p' hvin hvuniv hp'
        cases p' with
        | nil => cases hhead
        | cons a as =>
          have hav : a = v := by simpa using hhead
          subst hav
          refine ⟨rfl, by rwa [List.getLast?_cons_cons], ?_, ?_, ?_, ?_⟩
          · intro pr hpr
            rcases List.mem_cons.mp hpr with rfl | hpr'
            · exact hresv
            · exact hadj pr hpr'
          · refine List.nodup_cons.mpr ⟨?_, hnd⟩
            intro hu
            exact (hvis' u hu) (by simp)
          · intro x hx
            rcases List.mem_cons.mp hx with rfl | hx'
            · exact hvis
            · intro hxv
              exact hvis' x hx' (List.mem_cons_of_mem u hxv)
          · intro x hx
            rcases List.mem_cons.mp hx with rfl | hx'
            · exact huniv
            · exact huniv' x hx'
      · rw [if_neg hresv] at hfv; cases hfv

theorem ffLoop_valid {cap : Node → Node → Int} {univ : List Node}
    (hnd : univ.Nodup) (hS : Node.S ∈ univ) :
    ∀ (fuel : Nat) (f : Flow), ValidFlow cap univ f →
      ValidFlow cap univ (ffLoop cap univ fuel f) := by
  intro fuel
  induction fuel with
  | zero => intro f hf; exact hf
  | succ fuel ih =>
    intro f hf
    unfold ffLoop
    cases hfind : findPathAux (fun u v => cap u v - f u v) univ (univ.length + 1) [] Node.S with
    | none => exact hf
    | some p =>
      obtain ⟨hhead, hlast, hadj, hpnd, _, huniv'⟩ :=
        findPathAux_spec _ univ _ [] Node.S p (by simp) hS hfind
      have hlen : 2 ≤ p.length := by
        cases p with
        | nil => cases hhead
        | cons a as =>
          cases as with
          | nil =>
            have ha : a = Node.S := by simpa using hhead
            have ha' : a = Node.T := by simpa using hlast
            exact Node.noConfusion (ha.symm.trans ha')
          | cons a2 as2 => simp
      have hbpos : 0 < bottleneck (fun u v => cap u v - f u v) p :=
        bottleneck_pos hadj hlen
      have hedge : ∀ pr ∈ adjPairs p,
          f pr.1 pr.2 + bottleneck (fun u v => cap u v - f u v) p ≤ cap pr.1 pr.2 := by
        intro pr hpr
        have hble : bottleneck (fun u v => cap u v - f u v) p
            ≤ cap pr.1 pr.2 - f pr.1 pr.2 := bottleneck_le hpr
        omega
      obtain ⟨hsk', hcap'⟩ :=
        augmentPath_skew_cap hbpos.le p f hf.skew hf.le_cap hpnd hedge
      refine ih _ ⟨hsk', hcap', ?_⟩
      intro u hu huS huT
      rw [augmentPath_excess hnd p f huniv' u, hf.conserve u hu huS huT]
      rw [hhead, hlast]
      simp [Ne.symm huS, Ne.symm huT]

theorem capOf_nonneg (g : Node → Node → Option Nat) (u v : Node) : 0 ≤ capOf g u v :=
  Int.natCast_nonneg _

theorem ford_fulkerson_valid (g : Node → Node → Option Nat) (univ : List Node)
    (hnd : univ.Nodup) (hS : Node.S ∈ univ) :
    ValidFlow (capOf g) univ (ford_fulkerson g univ) := by
  refine ffLoop_valid hnd hS _ _ ⟨fun u v => by ring, ?_, ?_⟩
  · intro u v
    exact capOf_nonneg g u v
  · intro u _ _ _
    simp [excess]

/-! ## Bounds read off the solved network -/

theorem sum_map_neg {l : List α} (g : α → Int) :
    (l.map (fun a => -(g a))).sum = -((l.map g).sum) := by
  induction l with
  | nil => simp
  | cons x xs ih => simp [ih]; ring

theorem nodeUniv_nodup (n m : Nat) : (nodeUniv n m).Nodup := by
  unfold nodeUniv
  refine List.nodup_cons.mpr ⟨by simp, List.nodup_cons.mpr ⟨by simp, ?_⟩⟩
  refine List.Nodup.append ?_ ?_ ?_
  · exact (List.nodup_range n).map (fun a b h => by injection h)
  · exact (List.nodup_range m).map (fun a b h => by injection h)
  · intro a ha hb
    obtain ⟨i, _, rfl⟩ := List.mem_map.mp ha
    obtain ⟨j, _, h⟩ := List.mem_map.mp hb
    cases h

theorem S_mem_nodeUniv (n m : Nat) : Node.S ∈ nodeUniv n m := by simp [nodeUniv]

theorem D_mem_nodeUniv {n m i : Nat} (hi : i < n) : Node.D i ∈ nodeUniv n m := by
  unfold nodeUniv
  refine List.mem_cons_of_mem _ (List.mem_cons_of_mem _ ?_)
  exact List.mem_append_left _ (List.mem_map.mpr ⟨i, List.mem_range.mpr hi, rfl⟩)

theorem R_mem_nodeUniv {n m j : Nat} (hj : j < m) : Node.R j ∈ nodeUniv n m := by
  unfold nodeUniv
  refine List.mem_cons_of_mem _ (List.mem_cons_of_mem _ ?_)
  exact List.mem_append_right _ (List.mem_map.mpr ⟨j, List.mem_range.mpr hj, rfl⟩)

theorem build_graph_SD (env : Env) (drivers : List Driver) (unmatched : List Ride)
    (rejected : List (String × String)) (dl : Int) (c1 c2 : Nat) (i : Nat) :
    build_graph env drivers unmatched rejected dl c1 c2 Node.S (Node.D i)
      = if i < drivers.length then some c1 else none := rfl

theorem build_graph_RT (env : Env) (drivers : List Driver) (unmatched : List Ride)
    (rejected : List (String × String)) (dl : Int) (c1 c2 : Nat) (j : Nat) :
    build_graph env drivers unmatched rejected dl c1 c2 (Node.R j) Node.T
      = if j < unmatched.length then some c2 else none := rfl

theorem build_graph_dr (env : Env) {drivers : List Driver} {unmatched : List Ride}
    (rejected : List (String × String)) (dl : Int) (c1 c2 : Nat) {i j : Nat}
    {d : Driver} {r : Ride} (hd : drivers[i]? = some d) (hr : unmatched[j]? = some r) :
    build_graph env drivers unmatched rejected dl c1 c2 (Node.D i) (Node.R j)
      = if is_suitable env rejected dl d r then some 1 else none := by
  simp [build_graph, hd, hr]

theorem build_graph_dr_some (env : Env) {drivers : List Driver} {unmatched : List Ride}
    {rejected : List (String × String)} {dl : Int} {c1 c2 : Nat} {i j : Nat} {c : Nat}
    (h : build_graph env drivers unmatched rejected dl c1 c2 (Node.D i) (Node.R j) = some c) :
    ∃ d r, drivers[i]? = some d ∧ unmatched[j]? = some r ∧
      is_suitable env rejected dl d r = true ∧ c = 1 := by
  cases hd : drivers[i]? with
  | none =>
    rw [show build_graph env drivers unmatched rejected dl c1 c2 (Node.D i) (Node.R j)
      = none from by simp [build_graph, hd]] at h
    cases h
  | some d =>
    cases hr : unmatched[j]? with
    | none =>
      rw [show build_graph env drivers unmatched rejected dl c1 c2 (Node.D i) (Node.R j)
        = none from by simp [build_graph, hd, hr]] at h
      cases h
    | some r =>
      rw [build_graph_dr env rejected dl c1 c2 hd hr] at h
      by_cases hs : is_suitable env rejected dl d r
      · rw [if_pos hs] at h
        exact ⟨d, r, rfl, rfl, hs, (Option.some.inj h).symm⟩
      · rw [if_neg hs] at h
        cases h

section NetworkBounds

variable {env : Env} {drivers : List Driver} {unmatched : List Ride}
  {rejected : List (String × String)} {dl : Int} {c1 c2 : Nat}

/-- Net flow on a driver-to-ride edge is nonnegative (its reverse capacity
is zero). -/
theorem dr_nonneg {f : Flow}
    (hv : ValidFlow (capOf (build_graph env drivers unmatched rejected dl c1 c2))
      (nodeUniv drivers.length unmatched.length) f) (i j : Nat) :
    0 ≤ f (Node.D i) (Node.R j) := by
  have h1 : f (Node.R j) (Node.D i)
      ≤ capOf (build_graph env drivers unmatched rejected dl c1 c2) (Node.R j) (Node.D i) :=
    hv.le_cap _ _
  have h2 : capOf (build_graph env drivers unmatched rejected dl c1 c2)
      (Node.R j) (Node.D i) = 0 := rfl
  have h3 := hv.skew (Node.D i) (Node.R j)
  omega

/-- Conservation at an unmatched-ride node: the total net flow entering it
from the drivers is at most the per-ride cap. -/
theorem ride_col_sum_le {f : Flow}
    (hv : ValidFlow (capOf (build_graph env drivers unmatched rejected dl c1 c2))
      (nodeUniv drivers.length unmatched.length) f)
    {j : Nat} (hj : j < unmatched.length) :
    ((List.range drivers.length).map (fun i => f (Node.D i) (Node.R j))).sum ≤ (c2 : Int) := by
  have hcons := hv.conserve (Node.R j) (R_mem_nodeUniv hj) (by simp) (by simp)
  unfold excess nodeUniv at hcons
  simp only [List.map_cons, List.sum_cons, List.map_append, List.sum_append,
    List.map_map, Function.comp_def] at hcons
  have hRS : f (Node.R j) Node.S ≤ 0 := by
    have h1 := hv.le_cap (Node.R j) Node.S
    have h2 : capOf (build_graph env drivers unmatched rejected dl c1 c2)
        (Node.R j) Node.S = 0 := rfl
    omega
  have hRT : f (Node.R j) Node.T ≤ (c2 : Int) := by
    have h1 := hv.le_cap (Node.R j) Node.T
    have h2 : capOf (build_graph env drivers unmatched rejected dl c1 c2)
        (Node.R j) Node.T = (c2 : Int) := by
      simp [capOf, build_graph, hj]
    omega
  have hRR : ∀ j' : Nat, f (Node.R j) (Node.R j') = 0 := by
    intro j'
    have h1 := hv.le_cap (Node.R j) (Node.R j')
    have h2 : capOf (build_graph env drivers unmatched rejected dl c1 c2)
        (Node.R j) (Node.R j') = 0 := rfl
    have h3 := hv.le_cap (Node.R j') (Node.R j)
    have h4 : capOf (build_graph env drivers unmatched rejected dl c1 c2)
        (Node.R j') (Node.R j) = 0 := rfl
    have h5 := hv.skew (Node.R j) (Node.R j')
    omega
  have hsumRR : ((List.range unmatched.length).map
      (fun j' => f (Node.R j) (Node.R j'))).sum = 0 := by
    rw [sum_map_congr (h := fun _ => 0) (fun j' _ => hRR j')]
    simp
  have hsumD : ((List.range drivers.length).map (fun i => f (Node.R j) (Node.D i))).sum
      = -(((List.range drivers.length).map (fun i => f (Node.D i) (Node.R j))).sum) := by
    rw [sum_map_congr (h := fun i => -(f (Node.D i) (Node.R j)))
      (fun i _ => hv.skew (Node.R j) (Node.D i)), sum_map_neg]
  rw [hsumD, hsumRR] at hcons
  omega

/-- Conservation at a driver node: the total net flow it sends to the
rides is at most the per-driver cap. -/
theorem driver_row_sum_le {f : Flow}
    (hv : ValidFlow (capOf (build_graph env drivers unmatched rejected dl c1 c2))
      (nodeUniv drivers.length unmatched.length) f)
    {i : Nat} (hi : i < drivers.length) :
    ((List.range unmatched.length).map (fun j => f (Node.D i) (Node.R j))).sum ≤ (c1 : Int) := by
  have hcons := hv.conserve (Node.D i) (D_mem_nodeUniv hi) (by simp) (by simp)
  unfold excess nodeUniv at hcons
  simp only [List.map_cons, List.sum_cons, List.map_append, List.sum_append,
    List.map_map, Function.comp_def] at hcons
  have hDT : f (Node.D i) Node.T = 0 := by
    have h1 := hv.le_cap (Node.D i) Node.T
    have h2 : capOf (build_graph env drivers unmatched rejected dl c1 c2)
        (Node.D i) Node.T = 0 := rfl
    have h3 := hv.le_cap Node.T (Node.D i)
    have h4 : capOf (build_graph env drivers unmatched rejected dl c1 c2)
        Node.T (Node.D i) = 0 := rfl
    have h5 := hv.skew (Node.D i) Node.T
    omega
  have hDD : ∀ i' : Nat, f (Node.D i) (Node.D i') = 0 := by
    intro i'
    have h1 := hv.le_cap (Node.D i) (Node.D i')
    have h2 : capOf (build_graph env drivers unmatched rejected dl c1 c2)
        (Node.D i) (Node.D i') = 0 := rfl
    have h3 := hv.le_cap (Node.D i') (Node.D i)
    have h4 : capOf (build_graph env drivers unmatched rejected dl c1 c2)
        (Node.D i') (Node.D i) = 0 := rfl
    have h5 := hv.skew (Node.D i) (Node.D i')
    omega
  have hDS : -(f (Node.D i) Node.S) ≤ (c1 : Int) := by
    have h1 := hv.le_cap Node.S (Node.D i)
    have h2 : capOf (build_graph env drivers unmatched rejected dl c1 c2)
        Node.S (Node.D i) = (c1 : Int) := by
      simp [capOf, build_graph, hi]
    have h3 := hv.skew (Node.D i) Node.S
    omega
  have hsumDD : ((List.range drivers.length).map
      (fun i' => f (Node.D i) (Node.D i'))).sum = 0 := by
    rw [sum_map_congr (h := fun _ => 0) (fun i' _ => hDD i')]
    simp
  rw [hsumDD, hDT] at hcons
  omega

/-- A saturated dict entry means the edge carried one full unit of net
flow. -/
theorem saturated_f_one {f : Flow} {i j : Nat}
    (hsat : saturated_edge (build_graph env drivers unmatched rejected dl c1 c2) f i j
      = true) :
    f (Node.D i) (Node.R j) = 1 := by
  unfold saturated_edge at hsat
  cases hg : build_graph env drivers unmatched rejected dl c1 c2 (Node.D i) (Node.R j) with
  | none => rw [hg] at hsat; cases hsat
  | some c =>
    obtain ⟨d, r, _, _, _, rfl⟩ := build_graph_dr_some env hg
    rw [hg] at hsat
    simp only [decide_eq_true_eq] at hsat
    omega

end NetworkBounds

theorem count_le_sum {l : List Nat} {p : Nat → Bool} {g : Nat → Int}
    (h0 : ∀ i ∈ l, 0 ≤ g i) (h1 : ∀ i ∈ l, p i = true → 1 ≤ g i) :
    ((l.filter p).length : Int) ≤ (l.map g).sum := by
  induction l with
  | nil => simp
  | cons x xs ih =>
    have ihx := ih (fun i hi => h0 i (by simp [hi])) (fun i hi => h1 i (by simp [hi]))
    by_cases hx : p x = true
    · rw [List.filter_cons_of_pos hx]
      simp only [List.length_cons, List.map_cons, List.sum_cons]
      have h1x := h1 x (by simp) hx
      push_cast
      omega
    · rw [List.filter_cons_of_neg hx]
      simp only [List.map_cons, List.sum_cons]
      have h0x := h0 x (by simp)
      omega

theorem length_filterMap_eq {fn : α → Option β} : ∀ l : List α,
    (l.filterMap fn).length = (l.filter (fun a => (fn a).isSome)).length
  | [] => rfl
  | x :: xs => by
    cases hx : fn x with
    | none => simp [List.filterMap_cons, List.filter_cons, hx, length_filterMap_eq xs]
    | some y => simp [List.filterMap_cons, List.filter_cons, hx, length_filterMap_eq xs]

theorem length_filter_filterMap {fn : α → Option β} {q : β → Bool} : ∀ l : List α,
    ((l.filterMap fn).filter q).length
      = (l.filter (fun a => ((fn a).map q).getD false)).length
  | [] => rfl
  | x :: xs => by
    cases hx : fn x with
    | none => simp [List.filterMap_cons, hx, List.filter_cons, length_filter_filterMap xs]
    | some e =>
      by_cases hq : q e = true <;>
        simp [List.filterMap_cons, hx, List.filter_cons, hq, length_filter_filterMap xs]

theorem length_filter_le_indicator {l : List α} {pr : α → Bool} (a0 : α)
    (hnd : l.Nodup) (hall : ∀ a ∈ l, pr a = true → a = a0) :
    (l.filter pr).length ≤ if pr a0 = true then 1 else 0 := by
  by_cases hp : pr a0 = true
  · rw [if_pos hp]
    cases hfl : l.filter pr with
    | nil => simp
    | cons x xs =>
      cases xs with
      | nil => simp
      | cons y ys =>
        exfalso
        have hnd' : (l.filter pr).Nodup := hnd.filter _
        rw [hfl] at hnd'
        have hx : x ∈ l.filter pr := by rw [hfl]; simp
        have hy : y ∈ l.filter pr := by rw [hfl]; simp
        have hx' := List.mem_filter.mp hx
        have hy' := List.mem_filter.mp hy
        have hxa := hall x hx'.1 hx'.2
        have hya := hall y hy'.1 hy'.2
        exact (List.nodup_cons.mp hnd').1 (by rw [hxa, hya]; simp)
  · rw [if_neg hp]
    have hnil : l.filter pr = [] := by
      refine List.filter_eq_nil.mpr ?_
      intro a ha hpa
      exact hp ((hall a ha hpa) ▸ hpa)
    simp [hnil]

theorem sum_indicator_eq_length_filter {p : α → Bool} : ∀ l : List α,
    (l.map (fun a => if p a = true then (1 : Nat) else 0)).sum = (l.filter p).length
  | [] => rfl
  | x :: xs => by
    by_cases hx : p x = true <;>
      simp [List.filter_cons, hx, sum_indicator_eq_length_filter xs, Nat.add_comm]

theorem sum_map_congr_nat {l : List α} {g h : α → Nat} (hgh : ∀ v ∈ l, g v = h v) :
    (l.map g).sum = (l.map h).sum := by
  induction l with
  | nil => rfl
  | cons x xs ih =>
    simp only [List.map_cons, List.sum_cons]
    rw [hgh x (by simp), ih (fun v hv => hgh v (by simp [hv]))]

section CandidateBounds

variable {env : Env} {drivers : List Driver} {unmatched : List Ride}
  {rejected : List (String × String)} {dl : Int} {c1 c2 : Nat}

/-- Case analysis of one produced candidate entry: it needs existing
driver and ride records and a saturated edge, and carries the driver's
id. -/
theorem cand_entry_some {g : Node → Node → Option Nat} {f : Flow} {j i : Nat} {e : PDEntry}
    (h : cand_entry env drivers unmatched g f j i = some e) :
    ∃ (d : Driver) (r : Ride), drivers[i]? = some d ∧ unmatched[j]? = some r ∧
      saturated_edge g f i j = true ∧
      e = (d.id, env.dist d.address r.pickup_address, d.get_conflicting_rides r) := by
  unfold cand_entry at h
  cases hd : drivers[i]? with
  | none => simp only [hd] at h; cases h
  | some d =>
    cases hr : unmatched[j]? with
    | none => simp only [hd, hr] at h; cases h
    | some r =>
      simp only [hd, hr] at h
      by_cases hsat : saturated_edge g f i j = true
      · rw [if_pos hsat] at h
        exact ⟨d, r, rfl, rfl, hsat, (Option.some.inj h).symm⟩
      · rw [if_neg hsat] at h
        cases h

/-- A saturated dict entry presupposes the edge key exists in the built
network. -/
theorem saturated_edge_some {g : Node → Node → Option Nat} {f : Flow} {i j : Nat}
    (h : saturated_edge g f i j = true) :
    ∃ c, g (Node.D i) (Node.R j) = some c := by
  unfold saturated_edge at h
  cases hg : g (Node.D i) (Node.R j) with
  | none => rw [hg] at h; cases h
  | some c => exact ⟨c, rfl⟩

/-- Any candidate entry read back from the solved network comes from a
driver that is suitable for the ride: the edge existed in the built
network, so the distance check passed and the pair was not rejected. -/
theorem mem_ride_candidates {f : Flow} {j : Nat} {e : PDEntry}
    (he : e ∈ ride_candidates env drivers unmatched
      (build_graph env drivers unmatched rejected dl c1 c2) f j) :
    ∃ (i : Nat) (d : Driver) (r : Ride),
      drivers[i]? = some d ∧ unmatched[j]? = some r ∧
      is_suitable env rejected dl d r = true ∧
      e = (d.id, env.dist d.address r.pickup_address, d.get_conflicting_rides r) := by
  unfold ride_candidates at he
  simp only [List.mem_filterMap, List.mem_range] at he
  obtain ⟨i, _, hfn⟩ := he
  obtain ⟨d, r, hd, hr, hsat, htup⟩ := cand_entry_some hfn
  obtain ⟨c, hg⟩ := saturated_edge_some hsat
  obtain ⟨d', r', hd', hr', hs', _⟩ := build_graph_dr_some env hg
  have hdd : d = d' := by rw [hd] at hd'; exact Option.some.inj hd'
  have hrr : r = r' := by rw [hr] at hr'; exact Option.some.inj hr'
  exact ⟨i, d, r, hd, hr, by rw [hdd, hrr]; exact hs', htup⟩

/-- Out of range, the candidate list is empty (`unmatched[j]` does not
exist). -/
theorem ride_candidates_oob {g : Node → Node → Option Nat} {f : Flow} {j : Nat}
    (hj : unmatched.length ≤ j) :
    ride_candidates env drivers unmatched g f j = [] := by
  unfold ride_candidates
  refine List.filterMap_eq_nil.mpr ?_
  intro i _
  unfold cand_entry
  rw [List.getElem?_eq_none hj]
  cases drivers[i]? <;> rfl

/-- Per-ride cap: after solving, at most `cap_ride` candidates are read
back for any ride index. -/
theorem ride_candidates_length_le {f : Flow}
    (hv : ValidFlow (capOf (build_graph env drivers unmatched rejected dl c1 c2))
      (nodeUniv drivers.length unmatched.length) f) (j : Nat) :
    (ride_candidates env drivers unmatched
      (build_graph env drivers unmatched rejected dl c1 c2) f j).length ≤ c2 := by
  by_cases hj : j < unmatched.length
  · unfold ride_candidates
    rw [length_filterMap_eq]
    have hcount := count_le_sum (l := List.range drivers.length)
      (p := fun i => (cand_entry env drivers unmatched
        (build_graph env drivers unmatched rejected dl c1 c2) f j i).isSome)
      (g := fun i => f (Node.D i) (Node.R j))
      (fun i _ => dr_nonneg hv i j) ?_
    · have hsum := ride_col_sum_le hv hj
      have := le_trans hcount hsum
      exact_mod_cast this
    · intro i _ hp
      show (1 : Int) ≤ f (Node.D i) (Node.R j)
      obtain ⟨e, he⟩ := Option.isSome_iff_exists.mp hp
      obtain ⟨d, r, _, _, hsat, _⟩ := cand_entry_some he
      have hone := saturated_f_one hsat
      omega
  · rw [ride_candidates_oob (le_of_not_lt hj)]
    simp

/-- Per-driver cap: after solving, a driver index is saturated towards at
most `cap_driver` ride indices. -/
theorem driver_sat_count_le {f : Flow}
    (hv : ValidFlow (capOf (build_graph env drivers unmatched rejected dl c1 c2))
      (nodeUniv drivers.length unmatched.length) f) {i : Nat} (hi : i < drivers.length) :
    ((List.range unmatched.length).filter
      (fun j => saturated_edge (build_graph env drivers unmatched rejected dl c1 c2) f i j)).length
      ≤ c1 := by
  have hcount := count_le_sum (l := List.range unmatched.length)
    (p := fun j => saturated_edge (build_graph env drivers unmatched rejected dl c1 c2) f i j)
    (g := fun j => f (Node.D i) (Node.R j))
    (fun j _ => dr_nonneg hv i j)
    (fun j _ hsat => by
      show (1 : Int) ≤ f (Node.D i) (Node.R j)
      have hone := saturated_f_one hsat
      omega)
  have hsum := driver_row_sum_le hv hi
  have := le_trans hcount hsum
  exact_mod_cast this

end CandidateBounds

theorem set_possible_drivers_skel (pd : Nat → List PDEntry) :
    ∀ (j : Nat) (rides : List Ride),
      (set_possible_drivers pd j rides).map skel = rides.map skel
  | _, [] => rfl
  | j, r :: rest => by
    by_cases h : r.assigned_driver = none
    · simp only [set_possible_drivers, if_pos h, List.map_cons]
      rw [set_possible_drivers_skel pd (j + 1) rest]
      rfl
    · simp only [set_possible_drivers, if_neg h, List.map_cons]
      rw [set_possible_drivers_skel pd j rest]

theorem mem_set_possible_drivers {pd : Nat → List PDEntry} :
    ∀ {j : Nat} {rides : List Ride} {r' : Ride},
      r' ∈ set_possible_drivers pd j rides →
      (r'.assigned_driver ≠ none ∧ r' ∈ rides) ∨
        (∃ r ∈ rides, r.assigned_driver = none ∧
          ∃ k, j ≤ k ∧
            (rides.filter (fun r0 => r0.assigned_driver = none))[k - j]? = some r ∧
            r' = { r with possible_drivers := pd k })
  | _, [], r', h => by cases h
  | j, r :: rest, r', h => by
    by_cases ha : r.assigned_driver = none
    · simp only [set_possible_drivers, if_pos ha] at h
      rw [List.filter_cons_of_pos (by simp [ha])]
      rcases List.mem_cons.mp h with rfl | h'
      · refine Or.inr ⟨r, by simp, ha, j, le_refl j, ?_, rfl⟩
        simp
      · rcases mem_set_possible_drivers h' with ⟨hne, hmem⟩ | ⟨r0, hr0, ha0, k, hk, hget, hk'⟩
        · exact Or.inl ⟨hne, List.mem_cons_of_mem _ hmem⟩
        · refine Or.inr ⟨r0, List.mem_cons_of_mem _ hr0, ha0, k, le_trans (by omega) hk, ?_, hk'⟩
          have hidx : k - j = (k - (j + 1)) + 1 := by omega
          rw [hidx]
          simpa using hget
    · simp only [set_possible_drivers, if_neg ha] at h
      rw [List.filter_cons_of_neg (by simp [ha])]
      rcases List.mem_cons.mp h with rfl | h'
      · exact Or.inl ⟨ha, by simp⟩
      · rcases mem_set_possible_drivers h' with ⟨hne, hmem⟩ | ⟨r0, hr0, ha0, k, hk, hget, hk'⟩
        · exact Or.inl ⟨hne, List.mem_cons_of_mem _ hmem⟩
        · exact Or.inr ⟨r0, List.mem_cons_of_mem _ hr0, ha0, k, hk, hget, hk'⟩

theorem set_possible_drivers_count {pd : Nat → List PDEntry} {q : PDEntry → Bool} :
    ∀ (rides : List Ride) (j : Nat),
      (∀ r ∈ rides, r.assigned_driver ≠ none → r.possible_drivers = []) →
      ((set_possible_drivers pd j rides).map
          (fun r => (r.possible_drivers.filter q).length)).sum
        = ((List.range' j (rides.filter (fun r => r.assigned_driver = none)).length).map
            (fun k => ((pd k).filter q).length)).sum
  | [], _, _ => rfl
  | r :: rest, j, hA => by
    by_cases ha : r.assigned_driver = none
    · rw [List.filter_cons_of_pos (by simp [ha])]
      simp only [set_possible_drivers, if_pos ha, List.map_cons, List.sum_cons,
        List.length_cons, List.range'_succ]
      rw [set_possible_drivers_count rest (j + 1) (fun r0 h0 => hA r0 (by simp [h0]))]
    · rw [List.filter_cons_of_neg (by simp [ha])]
      simp only [set_possible_drivers, if_neg ha, List.map_cons, List.sum_cons]
      rw [hA r (by simp) ha,
        set_possible_drivers_count rest j (fun r0 h0 => hA r0 (by simp [h0]))]
      simp

theorem pipeline_once_drivers (env : Env) (dd : Int) (c1 c2 : Nat) (st : MatchMaker) :
    (pipeline_once env dd c1 c2 st).drivers = st.drivers := rfl

theorem pipeline_once_rejected (env : Env) (dd : Int) (c1 c2 : Nat) (st : MatchMaker) :
    (pipeline_once env dd c1 c2 st).rejected = st.rejected := rfl

theorem pipeline_once_changed (env : Env) (dd : Int) (c1 c2 : Nat) (st : MatchMaker) :
    (pipeline_once env dd c1 c2 st).changed = st.changed := rfl

theorem pipeline_once_skel (env : Env) (dd : Int) (c1 c2 : Nat) (st : MatchMaker) :
    (pipeline_once env dd c1 c2 st).rides.map skel = st.rides.map skel :=
  set_possible_drivers_skel _ 0 _

theorem match_flow_valid (env : Env) (dd : Int) (c1 c2 : Nat) (st : MatchMaker) :
    ValidFlow
      (capOf (build_graph env st.drivers (filter_unmatched_rides st) st.rejected dd c1 c2))
      (nodeUniv st.drivers.length (filter_unmatched_rides st).length)
      (match_flow env dd c1 c2 st) :=
  ford_fulkerson_valid _ _ (nodeUniv_nodup _ _) (S_mem_nodeUniv _ _)

theorem match_cands_length_le (env : Env) (dd : Int) (c1 c2 : Nat) (st : MatchMaker)
    (j : Nat) : (match_cands env dd c1 c2 st j).length ≤ c2 :=
  ride_candidates_length_le (match_flow_valid env dd c1 c2 st) j

theorem match_sorted_length_le (env : Env) (dd : Int) (c1 c2 : Nat) (st : MatchMaker)
    (j : Nat) : (match_sorted env dd c1 c2 st j).length ≤ c2 := by
  rw [match_sorted, List.length_insertionSort]
  exact match_cands_length_le env dd c1 c2 st j

theorem pipeline_once_assigned_empty {env : Env} {dd : Int} {c1 c2 : Nat} {st : MatchMaker}
    (hA : AssignedEmpty st) : AssignedEmpty (pipeline_once env dd c1 c2 st) := by
  intro r' hr' hne
  rcases mem_set_possible_drivers hr' with ⟨_, hmem⟩ | ⟨r, _, ha, k, _, _, rfl⟩
  · exact hA r' hmem hne
  · exact absurd ha hne

theorem pipeline_once_length_le {env : Env} {dd : Int} {c1 c2 : Nat} {st : MatchMaker}
    (hA : AssignedEmpty st) :
    ∀ r' ∈ (pipeline_once env dd c1 c2 st).rides, r'.possible_drivers.length ≤ c2 := by
  intro r' hr'
  rcases mem_set_possible_drivers hr' with ⟨hne, hmem⟩ | ⟨r, _, _, k, _, _, rfl⟩
  · rw [hA r' hmem hne]
    simp
  · exact match_sorted_length_le env dd c1 c2 st k

/-- After one pipeline pass, a rejected pair is never suggested: the ride
with the rejected id carries no candidate entry of the rejected driver. -/
theorem pipeline_once_excluded {env : Env} {dd : Int} {c1 c2 : Nat} {st : MatchMaker}
    {did rid : String} (hpair : (did, rid) ∈ st.rejected) (hA : AssignedEmpty st) :
    ExcludedFrom (pipeline_once env dd c1 c2 st) did rid := by
  intro r' hr' hid e he hedid
  rcases mem_set_possible_drivers hr' with ⟨hne, hmem⟩ | ⟨r, _, _, k, _, hget, rfl⟩
  · rw [hA r' hmem hne] at he
    cases he
  · have he' : e ∈ match_cands env dd c1 c2 st k :=
      (List.perm_insertionSort _ _).mem_iff.mp he
    obtain ⟨i, d, r0, _, hr0, hsuit, htup⟩ := mem_ride_candidates he'
    have hget' : (filter_unmatched_rides st)[k]? = some r := by
      simpa [filter_unmatched_rides] using hget
    have hr0r : r0 = r := by
      rw [hget'] at hr0
      exact (Option.some.inj hr0).symm
    unfold is_suitable at hsuit
    simp only [Bool.and_eq_true, decide_eq_true_eq] at hsuit
    have hdid : d.id = did := by
      rw [htup] at hedid
      exact hedid
    have hrid0 : r0.id = rid := by
      rw [hr0r]
      exact hid
    exact hsuit.2 (by rw [hdid, hrid0]; exact hpair)

/-- After one pipeline pass, driver id `did` occurs across all candidate
lists at most `cap_driver` times (needs unique driver ids, which every
committed state has). -/
theorem pipeline_once_appearances_le (env : Env) (dd : Int) (c1 c2 : Nat) {st : MatchMaker}
    (hA : AssignedEmpty st) (hnd : (st.drivers.map (fun d => d.id)).Nodup) (did : String) :
    appearances (pipeline_once env dd c1 c2 st).rides did ≤ c1 := by
  unfold appearances pipeline_once
  rw [set_possible_drivers_count st.rides 0 hA]
  have hsorteq : ∀ k ∈ List.range' 0 (st.rides.filter
        (fun r => r.assigned_driver = none)).length,
      ((match_sorted env dd c1 c2 st k).filter (fun e => decide (e.1 = did))).length
        = ((match_cands env dd c1 c2 st k).filter (fun e => decide (e.1 = did))).length := by
    intro k _
    rw [← List.countP_eq_length_filter, ← List.countP_eq_length_filter]
    exact (List.perm_insertionSort _ _).countP_eq _
  rw [sum_map_congr_nat hsorteq]
  by_cases hex : ∃ (i0 : Nat) (d0 : Driver), st.drivers[i0]? = some d0 ∧ d0.id = did
  · obtain ⟨i0, d0, hi0, hid0⟩ := hex
    have hi0lt : i0 < st.drivers.length := by
      rcases List.getElem?_eq_some.mp hi0 with ⟨hlt, _⟩
      exact hlt
    have huniq : ∀ (i : Nat) (d : Driver), st.drivers[i]? = some d → d.id = did → i = i0 := by
      intro i d hi hid
      have hilt : i < st.drivers.length := by
        rcases List.getElem?_eq_some.mp hi with ⟨hlt, _⟩
        exact hlt
      refine @List.getElem?_inj _ i i0 (st.drivers.map (fun d => d.id))
        (by simpa using hilt) hnd ?_
      rw [List.getElem?_map, List.getElem?_map, hi, hi0]
      simp [hid, hid0]
    have hk : ∀ k ∈ List.range' 0 (st.rides.filter
          (fun r => r.assigned_driver = none)).length,
        ((match_cands env dd c1 c2 st k).filter (fun e => decide (e.1 = did))).length
          ≤ (if saturated_edge
              (build_graph env st.drivers (filter_unmatched_rides st) st.rejected dd c1 c2)
              (match_flow env dd c1 c2 st) i0 k = true then 1 else 0) := by
      intro k _
      unfold match_cands ride_candidates
      rw [length_filter_filterMap]
      refine le_trans
        (length_filter_le_indicator i0 (List.nodup_range _) ?_) ?_
      · intro i _ hpr
        cases hce : cand_entry env st.drivers (filter_unmatched_rides st)
            (build_graph env st.drivers (filter_unmatched_rides st) st.rejected dd c1 c2)
            (match_flow env dd c1 c2 st) k i with
        | none => rw [hce] at hpr; cases hpr
        | some e =>
          rw [hce] at hpr
          simp only [Option.map_some', Option.getD_some, decide_eq_true_eq] at hpr
          obtain ⟨d, r, hd, _, _, rfl⟩ := cand_entry_some hce
          exact huniq i d hd hpr
      · by_cases hp : ((cand_entry env st.drivers (filter_unmatched_rides st)
            (build_graph env st.drivers (filter_unmatched_rides st) st.rejected dd c1 c2)
            (match_flow env dd c1 c2 st) k i0).map (fun e => decide (e.1 = did))).getD false
              = true
        · rw [if_pos hp]
          cases hce : cand_entry env st.drivers (filter_unmatched_rides st)
              (build_graph env st.drivers (filter_unmatched_rides st) st.rejected dd c1 c2)
              (match_flow env dd c1 c2 st) k i0 with
          | none => rw [hce] at hp; cases hp
          | some e =>
            obtain ⟨d, r, _, _, hsat, _⟩ := cand_entry_some hce
            rw [if_pos hsat]
        · rw [if_neg hp]
          exact Nat.zero_le _
    refine le_trans (List.sum_le_sum hk) ?_
    rw [sum_indicator_eq_length_filter]
    have hlen : (st.rides.filter (fun r => r.assigned_driver = none)).length
        = (filter_unmatched_rides st).length := rfl
    rw [hlen, ← List.range_eq_range' (filter_unmatched_rides st).length]
    exact driver_sat_count_le (match_flow_valid env dd c1 c2 st) hi0lt
  · push_neg at hex
    have hz : ∀ k ∈ List.range' 0 (st.rides.filter
          (fun r => r.assigned_driver = none)).length,
        ((match_cands env dd c1 c2 st k).filter (fun e => decide (e.1 = did))).length = 0 := by
      intro k _
      rw [List.length_eq_zero]
      refine List.filter_eq_nil_iff.mpr ?_
      intro e he hq
      obtain ⟨i, d, r, hd, _, _, rfl⟩ := mem_ride_candidates he
      simp only [decide_eq_true_eq] at hq
      exact hex i d hd hq
    rw [sum_map_congr_nat hz]
    simp

/-! ## The full matching entry point -/

theorem run_match_drivers (env : Env) :
    ∀ (fuel : Nat) (dd : Int) (c1 c2 : Nat) (force : Bool) (st : MatchMaker),
      (run_match env fuel dd c1 c2 force st).state.drivers = st.drivers := by
  intro fuel
  induction fuel with
  | zero => intro dd c1 c2 force st; rfl
  | succ fuel ih =>
    intro dd c1 c2 force st
    simp only [run_match]
    split_ifs with h1 h2
    · rfl
    · show (run_match env fuel (2 * dd) 200 5 true
          (pipeline_once env dd c1 c2 st)).state.drivers = st.drivers
      rw [ih]
      rfl
    · rfl

theorem run_match_rejected (env : Env) :
    ∀ (fuel : Nat) (dd : Int) (c1 c2 : Nat) (force : Bool) (st : MatchMaker),
      (run_match env fuel dd c1 c2 force st).state.rejected = st.rejected := by
  intro fuel
  induction fuel with
  | zero => intro dd c1 c2 force st; rfl
  | succ fuel ih =>
    intro dd c1 c2 force st
    simp only [run_match]
    split_ifs with h1 h2
    · rfl
    · show (run_match env fuel (2 * dd) 200 5 true
          (pipeline_once env dd c1 c2 st)).state.rejected = st.rejected
      rw [ih]
      rfl
    · rfl

theorem run_match_skel (env : Env) :
    ∀ (fuel : Nat) (dd : Int) (c1 c2 : Nat) (force : Bool) (st : MatchMaker),
      (run_match env fuel dd c1 c2 force st).state.rides.map skel = st.rides.map skel := by
  intro fuel
  induction fuel with
  | zero => intro dd c1 c2 force st; rfl
  | succ fuel ih =>
    intro dd c1 c2 force st
    simp only [run_match]
    split_ifs with h1 h2
    · rfl
    · show (run_match env fuel (2 * dd) 200 5 true
          (pipeline_once env dd c1 c2 st)).state.rides.map skel = st.rides.map skel
      rw [ih]
      exact pipeline_once_skel env dd c1 c2 st
    · exact pipeline_once_skel env dd c1 c2 st

theorem run_match_changed_false (env : Env) (fuel : Nat) (dd : Int) (c1 c2 : Nat)
    (force : Bool) (st : MatchMaker) :
    (run_match env (fuel + 1) dd c1 c2 force st).state.changed = false := by
  simp only [run_match]
  split_ifs with h1 h2
  · exact h1.1
  · rfl
  · rfl

theorem run_match_force_pipeline (env : Env) (fuel : Nat) (dd : Int) (c1 c2 : Nat)
    (st : MatchMaker) :
    (run_match env (fuel + 1) dd c1 c2 true st).ranPipeline = true := by
  by_cases h2 : match_matched env dd c1 c2 st < (filter_unmatched_rides st).length
      ∧ (filter_unmatched_rides st).length ≤ 200 ∧ dd < 80
  · simp [run_match, h2]
  · simp [run_match, h2]

theorem run_match_assigned_empty (env : Env) :
    ∀ (fuel : Nat) (dd : Int) (c1 c2 : Nat) (force : Bool) (st : MatchMaker),
      AssignedEmpty st → AssignedEmpty (run_match env fuel dd c1 c2 force st).state := by
  intro fuel
  induction fuel with
  | zero => intro dd c1 c2 force st hA; exact hA
  | succ fuel ih =>
    intro dd c1 c2 force st hA
    simp only [run_match]
    split_ifs with h1 h2
    · exact hA
    · intro r hr hne
      exact ih (2 * dd) 200 5 true (pipeline_once env dd c1 c2 st)
        (pipeline_once_assigned_empty hA) r hr hne
    · intro r hr hne
      exact pipeline_once_assigned_empty hA r hr hne

theorem run_match_excluded (env : Env) {did rid : String} :
    ∀ (fuel : Nat) (dd : Int) (c1 c2 : Nat) (force : Bool) (st : MatchMaker),
      (did, rid) ∈ st.rejected → AssignedEmpty st →
      (ExcludedFrom st did rid ∨ (1 ≤ fuel ∧ (st.changed = true ∨ force = true))) →
      ExcludedFrom (run_match env fuel dd c1 c2 force st).state did rid := by
  intro fuel
  induction fuel with
  | zero =>
    intro dd c1 c2 force st _ _ hE
    rcases hE with hE | ⟨h0, _⟩
    · exact hE
    · omega
  | succ fuel ih =>
    intro dd c1 c2 force st hpair hA hE
    simp only [run_match]
    split_ifs with h1 h2
    · rcases hE with hE | ⟨_, hc⟩
      · exact hE
      · rcases hc with hc | hc
        · rw [h1.1] at hc; cases hc
        · rw [h1.2] at hc; cases hc
    · intro r hr hid e he
      exact ih (2 * dd) 200 5 true (pipeline_once env dd c1 c2 st) hpair
        (pipeline_once_assigned_empty hA)
        (Or.inl (pipeline_once_excluded hpair hA)) r hr hid e he
    · intro r hr hid e he
      exact pipeline_once_excluded hpair hA r hr hid e he

/-- A completed, actually-run matching invocation leaves every ride's
candidate list within the larger of the invocation's per-ride cap and the
default per-ride cap 5, and every driver id's total number of appearances
within the larger of the invocation's per-driver cap and the default
per-driver cap 200 (radius-widening re-runs revert to the default caps). -/
theorem run_match_caps (env : Env) :
    ∀ (fuel : Nat) (dd : Int) (c1 c2 : Nat) (force : Bool) (st : MatchMaker),
      AssignedEmpty st → (st.drivers.map (fun d => d.id)).Nodup →
      (run_match env fuel dd c1 c2 force st).completed = true →
      (run_match env fuel dd c1 c2 force st).ranPipeline = true →
      (∀ r ∈ (run_match env fuel dd c1 c2 force st).state.rides,
        r.possible_drivers.length ≤ max c2 5) ∧
      (∀ did, appearances (run_match env fuel dd c1 c2 force st).state.rides did
        ≤ max c1 200) := by
  intro fuel
  induction fuel with
  | zero =>
    intro dd c1 c2 force st _ _ hc
    cases hc
  | succ fuel ih =>
    intro dd c1 c2 force st hA hnd hc hp
    by_cases h1 : st.changed = false ∧ force = false
    · simp [run_match, h1] at hp
    · by_cases h2 : match_matched env dd c1 c2 st < (filter_unmatched_rides st).length
          ∧ (filter_unmatched_rides st).length ≤ 200 ∧ dd < 80
      · have hinner :
            (run_match env fuel (2 * dd) 200 5 true
              (pipeline_once env dd c1 c2 st)).completed = true := by
          have hc' := hc
          simp only [run_match, if_neg h1, if_pos h2] at hc'
          exact hc'
        have hpipe :
            (run_match env fuel (2 * dd) 200 5 true
              (pipeline_once env dd c1 c2 st)).ranPipeline = true := by
          cases fuel with
          | zero => cases hinner
          | succ fuel' => exact run_match_force_pipeline env fuel' (2 * dd) 200 5 _
        have hbounds := ih (2 * dd) 200 5 true (pipeline_once env dd c1 c2 st)
          (pipeline_once_assigned_empty hA) hnd hinner hpipe
        simp only [run_match, if_neg h1, if_pos h2]
        constructor
        · intro r hr
          have hb := hbounds.1 r hr
          omega
        · intro did
          show appearances (run_match env fuel (2 * dd) 200 5 true
            (pipeline_once env dd c1 c2 st)).state.rides did ≤ max c1 200
          have hb := hbounds.2 did
          omega
      · simp only [run_match, if_neg h1, if_neg h2]
        constructor
        · intro r hr
          have hb := pipeline_once_length_le hA r hr
          omega
        · intro did
          show appearances (pipeline_once env dd c1 c2 st).rides did ≤ max c1 200
          have hb := pipeline_once_appearances_le env dd c1 c2 hA hnd did
          omega

/-! ## Termination of radius widening -/

theorem widen_steps_go_succ (fuel : Nat) (t : Int) :
    widen_steps_go (fuel + 1) t
      = if 80 ≤ t then 0 else widen_steps_go fuel (2 * t) + 1 := rfl

theorem widen_steps_go_stable :
    ∀ (fuel : Nat) (t : Int), 80 ≤ 2 ^ fuel * t →
      widen_steps_go (fuel + 1) t = widen_steps_go fuel t := by
  intro fuel
  induction fuel with
  | zero =>
    intro t ht
    have h80 : (80 : Int) ≤ t := by simpa using ht
    rw [widen_steps_go_succ, if_pos h80]
    rfl
  | succ fuel ih =>
    intro t ht
    rw [widen_steps_go_succ (fuel + 1) t, widen_steps_go_succ fuel t]
    by_cases h80 : (80 : Int) ≤ t
    · rw [if_pos h80, if_pos h80]
    · rw [if_neg h80, if_neg h80, ih (2 * t) (by
        have heq : (2 : Int) ^ (fuel + 1) * t = 2 ^ fuel * (2 * t) := by ring
        linarith [heq ▸ ht])]

theorem widen_steps_succ {t : Int} (h1 : 1 ≤ t) (h80 : t < 80) :
    widen_steps t = widen_steps (2 * t) + 1 := by
  have hbig : (80 : Int) ≤ 2 ^ 7 * (2 * t) := by nlinarith
  show widen_steps_go (7 + 1) t = widen_steps_go (7 + 1) (2 * t) + 1
  rw [widen_steps_go_succ 7 t, if_neg (not_le.mpr h80),
    widen_steps_go_stable 7 (2 * t) hbig]

theorem widen_steps_go_reaches :
    ∀ (fuel : Nat) (t : Int), 80 ≤ 2 ^ fuel * t →
      80 ≤ 2 ^ widen_steps_go fuel t * t := by
  intro fuel
  induction fuel with
  | zero =>
    intro t ht
    simpa [widen_steps_go] using ht
  | succ fuel ih =>
    intro t ht
    rw [widen_steps_go_succ]
    by_cases h80 : (80 : Int) ≤ t
    · rw [if_pos h80]
      simpa using h80
    · rw [if_neg h80]
      have hih := ih (2 * t) (by
        have heq : (2 : Int) ^ (fuel + 1) * t = 2 ^ fuel * (2 * t) := by ring
        linarith [heq ▸ ht])
      have heq2 : (2 : Int) ^ (widen_steps_go fuel (2 * t) + 1) * t
          = 2 ^ widen_steps_go fuel (2 * t) * (2 * t) := by ring
      linarith [heq2 ▸ hih]

theorem widen_steps_reaches {t : Int} (h1 : 1 ≤ t) : 80 ≤ 2 ^ widen_steps t * t := by
  refine widen_steps_go_reaches 8 t ?_
  nlinarith

theorem widen_steps_go_min :
    ∀ (fuel : Nat) (t : Int) (k : Nat), 80 ≤ 2 ^ k * t → widen_steps_go fuel t ≤ k := by
  intro fuel
  induction fuel with
  | zero => intro t k _; exact Nat.zero_le k
  | succ fuel ih =>
    intro t k hk
    rw [widen_steps_go_succ]
    by_cases h80 : (80 : Int) ≤ t
    · rw [if_pos h80]
      exact Nat.zero_le k
    · rw [if_neg h80]
      cases k with
      | zero =>
        exfalso
        apply h80
        simpa using hk
      | succ k' =>
        have := ih (2 * t) k' (by
          have heq : (2 : Int) ^ (k' + 1) * t = 2 ^ k' * (2 * t) := by ring
          linarith [heq ▸ hk])
        omega

theorem widen_steps_min {t : Int} {k : Nat} (hk : 80 ≤ 2 ^ k * t) : widen_steps t ≤ k :=
  widen_steps_go_min 8 t k hk

/-- With fuel `widen_steps t + 1`, a matching invocation at a positive
starting threshold `t` never exhausts its fuel: the Python recursion
terminates within `widen_steps t` re-invocations. -/
theorem run_match_completes (env : Env) :
    ∀ (n : Nat) (t : Int), widen_steps t = n → 1 ≤ t →
      ∀ (c1 c2 : Nat) (force : Bool) (st : MatchMaker),
        (run_match env (n + 1) t c1 c2 force st).completed = true := by
  intro n
  induction n using Nat.strong_induction_on with
  | _ n ih =>
    intro t hn h1 c1 c2 force st
    simp only [run_match]
    split_ifs with hg1 hg2
    · rfl
    · obtain ⟨_, _, h80⟩ := hg2
      have hsucc : widen_steps t = widen_steps (2 * t) + 1 := widen_steps_succ h1 h80
      show (run_match env n (2 * t) 200 5 true
        (pipeline_once env t c1 c2 st)).completed = true
      have hrw : n = widen_steps (2 * t) + 1 := by omega
      rw [hrw]
      exact ih (widen_steps (2 * t)) (by omega) (2 * t) rfl (by linarith) 200 5 true _
    · rfl

/-- A non-forced matching call on an unchanged state is a no-op reporting
`'matching algorithm not run'`. -/
theorem run_match_noop (env : Env) (fuel : Nat) (dd : Int) (c1 c2 : Nat)
    (st : MatchMaker) (h : st.changed = false) :
    run_match env (fuel + 1) dd c1 c2 false st = ⟨st, true, false⟩ := by
  simp [run_match, h]

theorem run_match_rideIds (env : Env) (fuel : Nat) (dd : Int) (c1 c2 : Nat)
    (force : Bool) (st : MatchMaker) :
    rideIds (run_match env fuel dd c1 c2 force st).state = rideIds st := by
  have h := run_match_skel env fuel dd c1 c2 force st
  have h2 := congrArg (List.map (fun x : String × String × Int × Int × Option String => x.1)) h
  simpa [rideIds, List.map_map, Function.comp_def, skel] using h2

theorem mem_dedupKeepFirst (key : α → String) :
    ∀ (l : List α) (seen : List String) {x : α},
      x ∈ dedupKeepFirst key l seen → x ∈ l
  | [], _, _, h => by cases h
  | y :: ys, seen, x, h => by
    by_cases hy : key y ∈ seen
    · simp only [dedupKeepFirst, if_pos hy] at h
      exact List.mem_cons_of_mem _ (mem_dedupKeepFirst key ys seen h)
    · simp only [dedupKeepFirst, if_neg hy] at h
      rcases List.mem_cons.mp h with rfl | h'
      · simp
      · exact List.mem_cons_of_mem _ (mem_dedupKeepFirst key ys _ h')

theorem mem_map_dedupKeepFirst (key : α → String) :
    ∀ (l : List α) (seen : List String) {k : String},
      k ∈ (dedupKeepFirst key l seen).map key ↔ k ∈ l.map key ∧ k ∉ seen
  | [], seen, k => by simp [dedupKeepFirst]
  | y :: ys, seen, k => by
    by_cases hy : key y ∈ seen
    · simp only [dedupKeepFirst, if_pos hy, List.map_cons, List.mem_cons]
      rw [mem_map_dedupKeepFirst key ys seen]
      constructor
      · rintro ⟨hk, hns⟩
        exact ⟨Or.inr hk, hns⟩
      · rintro ⟨hk | hk, hns⟩
        · exact absurd (hk ▸ hy) hns
        · exact ⟨hk, hns⟩
    · simp only [dedupKeepFirst, if_neg hy, List.map_cons, List.mem_cons]
      rw [mem_map_dedupKeepFirst key ys (key y :: seen)]
      constructor
      · rintro (rfl | ⟨hk, hns⟩)
        · exact ⟨Or.inl rfl, hy⟩
        · refine ⟨Or.inr hk, fun hin => hns (List.mem_cons_of_mem _ hin)⟩
      · rintro ⟨hk | hk, hns⟩
        · exact Or.inl hk
        · by_cases hkk : k = key y
          · exact Or.inl hkk
          · refine Or.inr ⟨hk, ?_⟩
            simp only [List.mem_cons, not_or]
            exact ⟨hkk, hns⟩

theorem nodup_map_dedupKeepFirst (key : α → String) :
    ∀ (l : List α) (seen : List String),
      ((dedupKeepFirst key l seen).map key).Nodup
  | [], _ => by simp [dedupKeepFirst]
  | y :: ys, seen => by
    by_cases hy : key y ∈ seen
    · simp only [dedupKeepFirst, if_pos hy]
      exact nodup_map_dedupKeepFirst key ys seen
    · simp only [dedupKeepFirst, if_neg hy, List.map_cons]
      refine List.nodup_cons.mpr ⟨?_, nodup_map_dedupKeepFirst key ys (key y :: seen)⟩
      intro hmem
      exact ((mem_map_dedupKeepFirst key ys (key y :: seen)).mp hmem).2 (by simp)

theorem dedupKeepFirst_eq_self (key : α → String) :
    ∀ (l : List α) (seen : List String),
      (l.map key).Nodup → (∀ a ∈ l, key a ∉ seen) →
      dedupKeepFirst key l seen = l
  | [], _, _, _ => rfl
  | y :: ys, seen, hnd, hout => by
    have hnd' := hnd
    rw [List.map_cons] at hnd'
    obtain ⟨hnotin, hndtail⟩ := List.nodup_cons.mp hnd'
    have hy : key y ∉ seen := hout y (by simp)
    simp only [dedupKeepFirst, if_neg hy]
    rw [dedupKeepFirst_eq_self key ys (key y :: seen) hndtail]
    intro a ha
    simp only [List.mem_cons, not_or]
    refine ⟨?_, hout a (by simp [ha])⟩
    intro hkk
    have hmem : key a ∈ ys.map key := List.mem_map.mpr ⟨a, ha, rfl⟩
    rw [hkk] at hmem
    exact hnotin hmem

theorem find?_dedupKeepFirst (key : α → String) (k : String) :
    ∀ (l : List α) (seen : List String), k ∉ seen →
      (dedupKeepFirst key l seen).find? (fun x => decide (key x = k))
        = l.find? (fun x => decide (key x = k))
  | [], _, _ => rfl
  | y :: ys, seen, hk => by
    by_cases hy : key y ∈ seen
    · have hky : ¬(key y = k) := fun hEq => hk (hEq ▸ hy)
      simp only [dedupKeepFirst, if_pos hy]
      rw [find?_dedupKeepFirst key k ys seen hk,
        List.find?_cons_of_neg _ (by simpa using hky)]
    · by_cases hky : key y = k
      · simp only [dedupKeepFirst, if_neg hy]
        rw [List.find?_cons_of_pos _ (by simpa using hky),
          List.find?_cons_of_pos _ (by simpa using hky)]
      · simp only [dedupKeepFirst, if_neg hy]
        rw [List.find?_cons_of_neg _ (by simpa using hky),
          List.find?_cons_of_neg _ (by simpa using hky)]
        exact find?_dedupKeepFirst key k ys (key y :: seen)
          (by simp only [List.mem_cons, not_or]; exact ⟨fun h => hky h.symm, hk⟩)

theorem replaceFirst_find? (p : α → Bool) (x : α) :
    ∀ (l : List α) {y : α}, l.find? p = some y → p x = true →
      (replaceFirst p x l).find? p = some x
  | [], _, h, _ => by cases h
  | z :: zs, y, h, hx => by
    by_cases hz : p z = true
    · simp only [replaceFirst, if_pos hz, List.find?_cons, hx]
    · rw [List.find?_cons_of_neg _ hz] at h
      simp only [replaceFirst, if_neg hz]
      rw [List.find?_cons_of_neg _ hz]
      exact replaceFirst_find? p x zs h hx

theorem replaceFirst_map_key (key : α → String) (p : α → Bool) (x : α) :
    ∀ (l : List α) {y : α}, l.find? p = some y → key x = key y →
      (replaceFirst p x l).map key = l.map key
  | [], _, h, _ => by cases h
  | z :: zs, y, h, hkey => by
    by_cases hz : p z = true
    · rw [List.find?_cons_of_pos _ hz] at h
      cases h
      simp only [replaceFirst, if_pos hz, List.map_cons, hkey]
    · rw [List.find?_cons_of_neg _ hz] at h
      simp only [replaceFirst, if_neg hz, List.map_cons]
      rw [replaceFirst_map_key key p x zs h hkey]

theorem mem_replaceFirst (p : α → Bool) (x : α) :
    ∀ (l : List α) {z : α}, z ∈ replaceFirst p x l → z = x ∨ z ∈ l
  | [], _, h => by cases h
  | w :: ws, z, h => by
    by_cases hw : p w = true
    · simp only [replaceFirst, if_pos hw] at h
      rcases List.mem_cons.mp h with rfl | h'
      · exact Or.inl rfl
      · exact Or.inr (List.mem_cons_of_mem _ h')
    · simp only [replaceFirst, if_neg hw] at h
      rcases List.mem_cons.mp h with rfl | h'
      · exact Or.inr (by simp)
      · rcases mem_replaceFirst p x ws h' with h'' | h''
        · exact Or.inl h''
        · exact Or.inr (List.mem_cons_of_mem _ h'')

theorem make_unique_rejected (st : MatchMaker) :
    ∀ p, p ∈ (make_unique st).rejected ↔ p ∈ st.rejected ∧ p.2 ∈ rideIds (make_unique st) := by
  intro p
  simp only [make_unique, rideIds, List.mem_filter]
  constructor
  · rintro ⟨hmem, hid⟩
    exact ⟨hmem, by simpa using hid⟩
  · rintro ⟨hmem, hid⟩
    exact ⟨hmem, by simpa using hid⟩

theorem make_unique_assigned_empty {st : MatchMaker} (hA : AssignedEmpty st) :
    AssignedEmpty (make_unique st) := by
  intro r hr hne
  exact hA r (mem_dedupKeepFirst _ _ _ hr) hne

theorem make_unique_excluded {st : MatchMaker} {did rid : String}
    (hE : ExcludedFrom st did rid) : ExcludedFrom (make_unique st) did rid := by
  intro r hr hid e he
  exact hE r (mem_dedupKeepFirst _ _ _ hr) hid e he

theorem remove_old_rides_assigned_empty {now : Int} (st : MatchMaker)
    (hA : AssignedEmpty st) : AssignedEmpty (remove_old_rides now st) := by
  intro r hr hne
  exact hA r (List.mem_filter.mp hr).1 hne

theorem remove_old_rides_excluded {now : Int} {st : MatchMaker} {did rid : String}
    (hE : ExcludedFrom st did rid) : ExcludedFrom (remove_old_rides now st) did rid := by
  intro r hr hid e he
  exact hE r (List.mem_filter.mp hr).1 hid e he

theorem commit_changes_assigned_empty (env : Env) (now : Int) {st : MatchMaker}
    (hA : AssignedEmpty st) : AssignedEmpty (commit_changes env now st) := by
  refine run_match_assigned_empty env commit_fuel 10 200 5 false _ ?_
  exact make_unique_assigned_empty
    (remove_old_rides_assigned_empty { st with changed := true } hA)

/-- C8 core: after a commit, every rejected pair's ride id denotes a
retained ride. -/
theorem commit_changes_rejected_valid (env : Env) (now : Int) (st : MatchMaker) :
    ∀ p ∈ (commit_changes env now st).rejected, p.2 ∈ rideIds (commit_changes env now st) := by
  intro p hp
  unfold commit_changes at hp ⊢
  rw [run_match_rejected] at hp
  rw [run_match_rideIds]
  exact ((make_unique_rejected _ p).mp hp).2

/-- A rejected pair whose ride id survives the commit is itself kept, and
the commit's matching pass leaves the pair unsuggested. -/
theorem commit_changes_excluded (env : Env) (now : Int) {st : MatchMaker} {did rid : String}
    (hpair : (did, rid) ∈ st.rejected) (hA : AssignedEmpty st)
    (hrid : rid ∈ rideIds (commit_changes env now st)) :
    (did, rid) ∈ (commit_changes env now st).rejected ∧
      ExcludedFrom (commit_changes env now st) did rid := by
  have hrid' : rid ∈ rideIds (make_unique (remove_old_rides now { st with changed := true })) := by
    unfold commit_changes at hrid
    rwa [run_match_rideIds] at hrid
  have hpair' : (did, rid) ∈
      (make_unique (remove_old_rides now { st with changed := true })).rejected := by
    refine (make_unique_rejected _ _).mpr ⟨hpair, hrid'⟩
  constructor
  · unfold commit_changes
    rw [run_match_rejected]
    exact hpair'
  · unfold commit_changes
    show ExcludedFrom (run_match env (7 + 1) 10 200 5 false
      (make_unique (remove_old_rides now { st with changed := true }))).state did rid
    refine run_match_excluded env (7 + 1) 10 200 5 false _ hpair'
      (make_unique_assigned_empty
        (remove_old_rides_assigned_empty { st with changed := true } hA))
      (Or.inr ⟨by omega, Or.inl rfl⟩)

theorem commit_changes_drivers (env : Env) (now : Int) (st : MatchMaker) :
    (commit_changes env now st).drivers = dedupKeepFirst (fun d => d.id) st.drivers [] := by
  unfold commit_changes
  rw [run_match_drivers]
  rfl

theorem commit_changes_drivers_nodup (env : Env) (now : Int) (st : MatchMaker) :
    ((commit_changes env now st).drivers.map (fun d => d.id)).Nodup := by
  rw [commit_changes_drivers]
  exact nodup_map_dedupKeepFirst _ _ _

theorem skel_id {r r' : Ride} (h : skel r = skel r') : r.id = r'.id :=
  congrArg Prod.fst h

theorem skel_ride_end {r r' : Ride} (h : skel r = skel r') : r.ride_end = r'.ride_end :=
  congrArg (fun x : String × String × Int × Int × Option String => x.2.2.2.1) h

theorem skel_assigned {r r' : Ride} (h : skel r = skel r') :
    r.assigned_driver = r'.assigned_driver :=
  congrArg (fun x : String × String × Int × Int × Option String => x.2.2.2.2) h

theorem mem_of_map_eq {f : α → β} {l1 l2 : List α} (h : l1.map f = l2.map f)
    {x : α} (hx : x ∈ l1) : ∃ y ∈ l2, f y = f x := by
  have hm : f x ∈ l2.map f := by
    rw [← h]
    exact List.mem_map.mpr ⟨x, hx, rfl⟩
  rcases List.mem_map.mp hm with ⟨y, hy, hfy⟩
  exact ⟨y, hy, hfy⟩

/-- C9 core, discard direction: after a commit only rides whose end lies
less than 2 days in the past remain. -/
theorem commit_changes_young (env : Env) (now : Int) (st : MatchMaker) :
    ∀ r' ∈ (commit_changes env now st).rides, (now - r'.ride_end) / 86400 < 2 := by
  intro r' hr'
  have hskel : (commit_changes env now st).rides.map skel
      = (make_unique (remove_old_rides now { st with changed := true })).rides.map skel := by
    unfold commit_changes
    exact run_match_skel env commit_fuel 10 200 5 false _
  obtain ⟨r0, hr0, hsk⟩ := mem_of_map_eq hskel hr'
  have hr0p : r0 ∈ (remove_old_rides now { st with changed := true }).rides :=
    mem_dedupKeepFirst _ _ _ hr0
  have hyoung := (List.mem_filter.mp hr0p).2
  rw [skel_ride_end hsk] at hyoung
  simpa using hyoung

/-- C9 core, retention direction: the id of any still-young ride survives
the commit. -/
theorem commit_changes_young_id_retained (env : Env) (now : Int) (st : MatchMaker)
    {r : Ride} (hr : r ∈ st.rides) (hyoung : (now - r.ride_end) / 86400 < 2) :
    r.id ∈ rideIds (commit_changes env now st) := by
  unfold commit_changes
  rw [run_match_rideIds]
  have hrp : r ∈ (remove_old_rides now { st with changed := true }).rides :=
    List.mem_filter.mpr ⟨hr, by simpa using hyoung⟩
  show r.id ∈ (dedupKeepFirst (fun r => r.id)
    (remove_old_rides now { st with changed := true }).rides []).map (fun r => r.id)
  rw [mem_map_dedupKeepFirst]
  exact ⟨List.mem_map.mpr ⟨r, hrp, rfl⟩, by simp⟩

/-- Every operator action preserves the spec's invariant that assigned
rides carry no candidate list. -/
theorem applyOp_assigned_empty (env : Env) (op : Op) (st : MatchMaker)
    (hA : AssignedEmpty st) : AssignedEmpty (applyOp env op st) := by
  cases op with
  | deleteRide now ride_id =>
    refine commit_changes_assigned_empty env now ?_
    intro r hr hne
    exact hA r (List.mem_filter.mp hr).1 hne
  | deleteDriver now driver_id =>
    refine commit_changes_assigned_empty env now ?_
    intro r hr hne
    rcases List.mem_map.mp hr with ⟨r0, hr0, rfl⟩
    by_cases hcase : r0.assigned_driver = some driver_id
    · rw [if_pos hcase] at hne ⊢
      exact absurd rfl hne
    · rw [if_neg hcase] at hne ⊢
      exact hA r0 hr0 hne
  | addRides now xs =>
    refine commit_changes_assigned_empty env now ?_
    intro r hr hne
    rcases List.mem_append.mp hr with hr' | hr'
    · exact hA r hr' hne
    · rcases List.mem_map.mp hr' with ⟨x, _, rfl⟩
      exact absurd rfl hne
  | addDrivers now xs =>
    exact commit_changes_assigned_empty env now hA
  | assign now did rid =>
    show AssignedEmpty (assign_driver_to_ride env now did rid st).2
    unfold assign_driver_to_ride
    cases hfd : st.drivers.find? (fun d => d.id = did) with
    | none => simp only [hfd]; exact hA
    | some driver =>
      cases hfr : st.rides.find? (fun r => r.id = rid) with
      | none => simp only [hfd, hfr]; exact hA
      | some ride =>
        simp only [hfd, hfr]
        cases hacc : driver.add_accepted_ride ride with
        | mk ok driver' =>
          cases ok with
          | false => exact hA
          | true =>
            refine commit_changes_assigned_empty env now ?_
            intro r hr hne
            rcases mem_replaceFirst _ _ _ hr with rfl | hr'
            · rfl
            · exact hA r hr' hne
  | unassign now did rid =>
    show AssignedEmpty (remove_driver_from_ride env now did rid st).2
    unfold remove_driver_from_ride
    cases hfd : st.drivers.find? (fun d => d.id = did) with
    | none => simp only [hfd]; exact hA
    | some driver =>
      cases hfr : st.rides.find? (fun r => r.id = rid) with
      | none => simp only [hfd, hfr]; exact hA
      | some ride =>
        simp only [hfd, hfr]
        by_cases has : ride.assigned_driver = some driver.id
        · rw [if_pos has]
          refine commit_changes_assigned_empty env now ?_
          intro r hr hne
          rcases mem_replaceFirst _ _ _ hr with rfl | hr'
          · exact absurd rfl hne
          · exact hA r hr' hne
        · rw [if_neg has]
          exact hA
  | reject now did rid =>
    exact commit_changes_assigned_empty env now hA
  | runMatch dd c1 c2 force =>
    exact run_match_assigned_empty env _ dd c1 c2 force st hA

/-- One operator action keeps a rejected pair (as long as the ride id is
still retained afterwards) and keeps the pair unsuggested. -/
theorem applyOp_retains (env : Env) (op : Op) (st : MatchMaker) {did rid : String}
    (hA : AssignedEmpty st) (hpair : (did, rid) ∈ st.rejected)
    (hE : ExcludedFrom st did rid)
    (hrid : rid ∈ rideIds (applyOp env op st)) :
    (did, rid) ∈ (applyOp env op st).rejected ∧
      ExcludedFrom (applyOp env op st) did rid := by
  cases op with
  | deleteRide now ride_id =>
    refine commit_changes_excluded env now hpair ?_ hrid
    intro r hr hne
    exact hA r (List.mem_filter.mp hr).1 hne
  | deleteDriver now driver_id =>
    refine commit_changes_excluded env now hpair ?_ hrid
    intro r hr hne
    rcases List.mem_map.mp hr with ⟨r0, hr0, rfl⟩
    by_cases hcase : r0.assigned_driver = some driver_id
    · rw [if_pos hcase] at hne ⊢
      exact absurd rfl hne
    · rw [if_neg hcase] at hne ⊢
      exact hA r0 hr0 hne
  | addRides now xs =>
    refine commit_changes_excluded env now hpair ?_ hrid
    intro r hr hne
    rcases List.mem_append.mp hr with hr' | hr'
    · exact hA r hr' hne
    · rcases List.mem_map.mp hr' with ⟨x, _, rfl⟩
      exact absurd rfl hne
  | addDrivers now xs =>
    exact commit_changes_excluded env now hpair hA hrid
  | assign now did' rid' =>
    show (did, rid) ∈ (assign_driver_to_ride env now did' rid' st).2.rejected ∧
      ExcludedFrom (assign_driver_to_ride env now did' rid' st).2 did rid
    have hrid2 : rid ∈ rideIds (assign_driver_to_ride env now did' rid' st).2 := hrid
    revert hrid2
    unfold assign_driver_to_ride
    cases hfd : st.drivers.find? (fun d => d.id = did') with
    | none => intro _; exact ⟨hpair, hE⟩
    | some driver =>
      cases hfr : st.rides.find? (fun r => r.id = rid') with
      | none => simp only [hfd, hfr]; intro _; exact ⟨hpair, hE⟩
      | some ride =>
        simp only [hfd, hfr]
        cases hacc : driver.add_accepted_ride ride with
        | mk ok driver' =>
          cases ok with
          | false => intro _; exact ⟨hpair, hE⟩
          | true =>
            intro hrid3
            refine commit_changes_excluded env now hpair ?_ hrid3
            intro r hr hne
            rcases mem_replaceFirst _ _ _ hr with rfl | hr'
            · rfl
            · exact hA r hr' hne
  | unassign now did' rid' =>
    show (did, rid) ∈ (remove_driver_from_ride env now did' rid' st).2.rejected ∧
      ExcludedFrom (remove_driver_from_ride env now did' rid' st).2 did rid
    have hrid2 : rid ∈ rideIds (remove_driver_from_ride env now did' rid' st).2 := hrid
    revert hrid2
    unfold remove_driver_from_ride
    cases hfd : st.drivers.find? (fun d => d.id = did') with
    | none => intro _; exact ⟨hpair, hE⟩
    | some driver =>
      cases hfr : st.rides.find? (fun r => r.id = rid') with
      | none => simp only [hfd, hfr]; intro _; exact ⟨hpair, hE⟩
      | some ride =>
        simp only [hfd, hfr]
        by_cases has : ride.assigned_driver = some driver.id
        · rw [if_pos has]
          intro hrid3
          refine commit_changes_excluded env now hpair ?_ hrid3
          intro r hr hne
          rcases mem_replaceFirst _ _ _ hr with rfl | hr'
          · exact absurd rfl hne
          · exact hA r hr' hne
        · rw [if_neg has]
          intro _
          exact ⟨hpair, hE⟩
  | reject now did' rid' =>
    refine commit_changes_excluded env now ?_ hA hrid
    show (did, rid) ∈ st.rejected.insert (did', rid')
    by_cases heq : ((did, rid) : String × String) = (did', rid')
    · rw [heq]
      exact List.mem_insert_self _ _
    · exact List.mem_insert_iff.mpr (Or.inr hpair)
  | runMatch dd c1 c2 force =>
    constructor
    · show (did, rid) ∈ (run_match env (commit_fuel + dd.toNat) dd c1 c2 force st).state.rejected
      rw [run_match_rejected]
      exact hpair
    · exact run_match_excluded env _ dd c1 c2 force st hpair hA (Or.inl hE)

theorem applyOps_cons (env : Env) (op : Op) (ops : List Op) (st : MatchMaker) :
    applyOps env (op :: ops) st = applyOps env ops (applyOp env op st) := rfl

/-- Across any sequence of operator actions during which the ride id stays
retained, a rejected pair stays rejected and stays unsuggested. -/
theorem applyOps_retains (env : Env) {did rid : String} :
    ∀ (ops : List Op) (st : MatchMaker),
      AssignedEmpty st → (did, rid) ∈ st.rejected → ExcludedFrom st did rid →
      (∀ k, rid ∈ rideIds (applyOps env (ops.take k) st)) →
      (did, rid) ∈ (applyOps env ops st).rejected ∧
        ExcludedFrom (applyOps env ops st) did rid := by
  intro ops
  induction ops with
  | nil =>
    intro st _ hpair hE _
    exact ⟨hpair, hE⟩
  | cons op rest ih =>
    intro st hA hpair hE htrace
    have hrid1 : rid ∈ rideIds (applyOp env op st) := by
      have h1 := htrace 1
      rw [show (op :: rest).take 1 = [op] from rfl] at h1
      exact h1
    obtain ⟨hpair1, hE1⟩ := applyOp_retains env op st hA hpair hE hrid1
    have hA1 := applyOp_assigned_empty env op st hA
    have htrace1 : ∀ k, rid ∈ rideIds (applyOps env (rest.take k) (applyOp env op st)) := by
      intro k
      have h1 := htrace (k + 1)
      rw [show (op :: rest).take (k + 1) = op :: rest.take k from rfl] at h1
      exact h1
    rw [applyOps_cons]
    exact ih (applyOp env op st) hA1 hpair1 hE1 htrace1

/-- With no drivers, one unassigned ride and a threshold of 0, every
re-invocation matches nothing and widens 0 to 0: the recursion consumes any
amount of fuel without completing. -/
theorem run_match_diverges_aux (env : Env) :
    ∀ (fuel : Nat) (st : MatchMaker), st.drivers = [] →
      (∃ r, st.rides = [r] ∧ r.assigned_driver = none) →
      (run_match env fuel 0 200 5 true st).completed = false := by
  intro fuel
  induction fuel with
  | zero => intro st _ _; rfl
  | succ fuel ih =>
    intro st hdrv ⟨r0, hrd, hr0⟩
    have hguard1 : ¬(st.changed = false ∧ (true : Bool) = false) := by simp
    have hunm : filter_unmatched_rides st = [r0] := by
      simp [filter_unmatched_rides, hrd, hr0]
    have hcands : ∀ j, match_cands env 0 200 5 st j = [] := by
      intro j
      unfold match_cands ride_candidates
      rw [hdrv]
      rfl
    have hmm : match_matched env 0 200 5 st = 0 := by
      unfold match_matched
      rw [hunm]
      simp [hcands]
    have hguard2 : match_matched env 0 200 5 st < (filter_unmatched_rides st).length
        ∧ (filter_unmatched_rides st).length ≤ 200 ∧ (0 : Int) < 80 := by
      rw [hmm, hunm]
      norm_num
    simp only [run_match, if_neg hguard1, if_pos hguard2]
    show (run_match env fuel (2 * 0) 200 5 true (pipeline_once env 0 200 5 st)).completed
      = false
    rw [show (2 : Int) * 0 = 0 from by norm_num]
    refine ih (pipeline_once env 0 200 5 st) (by rw [pipeline_once_drivers, hdrv]) ?_
    refine ⟨{ r0 with possible_drivers := match_sorted env 0 200 5 st 0 }, ?_, hr0⟩
    show set_possible_drivers (match_sorted env 0 200 5 st) 0 st.rides = _
    rw [hrd]
    simp [set_possible_drivers, hr0]

theorem replaceFirst_key_unique (key : α → String) (p : α → Bool) (x : α) (k : String)
    (hp : ∀ a, p a = true ↔ key a = k) :
    ∀ (l : List α), (l.map key).Nodup →
      ∀ z ∈ replaceFirst p x l, key z = k → z = x
  | [], _, z, hz, _ => by cases hz
  | w :: ws, hnd, z, hz, hzk => by
    have hnd' := hnd
    rw [List.map_cons] at hnd'
    obtain ⟨hnotin, hndtail⟩ := List.nodup_cons.mp hnd'
    by_cases hw : p w = true
    · simp only [replaceFirst, if_pos hw] at hz
      rcases List.mem_cons.mp hz with rfl | hz'
      · rfl
      · exfalso
        have hwk : key w = k := (hp w).mp hw
        have : key z ∈ ws.map key := List.mem_map.mpr ⟨z, hz', rfl⟩
        rw [hzk, ← hwk] at this
        exact hnotin this
    · simp only [replaceFirst, if_neg hw] at hz
      rcases List.mem_cons.mp hz with rfl | hz'
      · exact absurd ((hp z).mpr hzk) hw
      · exact replaceFirst_key_unique key p x k hp ws hndtail z hz' hzk

/-! ## Persistence lemmas -/

theorem maxDoc_eq_none {docs : List (Int × α)} (h : maxDoc docs = none) : docs = [] := by
  cases docs with
  | nil => rfl
  | cons d rest =>
    exfalso
    unfold maxDoc at h
    cases hmr : maxDoc rest <;> simp only [hmr] at h <;> cases h

theorem maxDoc_spec : ∀ (docs : List (Int × α)) (m : Int × α), maxDoc docs = some m →
    m ∈ docs ∧ ∀ d ∈ docs, d.1 ≤ m.1
  | [], _, h => by cases h
  | d :: rest, m, h => by
    cases hm : maxDoc rest with
    | none =>
      have hrest : rest = [] := maxDoc_eq_none hm
      subst hrest
      unfold maxDoc at h
      simp only [hm] at h
      injection h with h2
      subst h2
      exact ⟨by simp, by simp⟩
    | some m0 =>
      obtain ⟨hmem0, hmax0⟩ := maxDoc_spec rest m0 hm
      unfold maxDoc at h
      simp only [hm] at h
      injection h with h2
      by_cases hlt : d.1 < m0.1
      · rw [if_pos hlt] at h2
        subst h2
        refine ⟨List.mem_cons_of_mem _ hmem0, ?_⟩
        intro d' hd'
        rcases List.mem_cons.mp hd' with rfl | hd''
        · exact le_of_lt hlt
        · exact hmax0 d' hd''
      · rw [if_neg hlt] at h2
        subst h2
        refine ⟨by simp, ?_⟩
        intro d' hd'
        rcases List.mem_cons.mp hd' with rfl | hd''
        · exact le_refl _
        · exact le_trans (hmax0 d' hd'') (le_of_not_lt hlt)

theorem eq_singleton_of_nodup_all_eq {l : List α} (hnd : l.Nodup) {m : α}
    (hm : m ∈ l) (hall : ∀ x ∈ l, x = m) : l = [m] := by
  cases l with
  | nil => cases hm
  | cons x xs =>
    have hx : x = m := hall x (by simp)
    cases xs with
    | nil => rw [hx]
    | cons y ys =>
      exfalso
      have hy : y = m := hall y (by simp)
      have := (List.nodup_cons.mp hnd).1
      rw [hx, hy] at this
      exact this (by simp)

/-- On a successful assignment the engine records the interval on the first
driver with the id, sets the found ride's assignment, and commits. -/
theorem assign_success_eq (env : Env) (now : Int) (did rid : String)
    (st : MatchMaker) {driver : Driver} {ride : Ride}
    (hfd : st.drivers.find? (fun d => d.id = did) = some driver)
    (hfr : st.rides.find? (fun r => r.id = rid) = some ride)
    (hconf : driver.unavailable_timings.any
      (fun t => overlaps t.1 t.2.1 ride.ride_start ride.ride_end) = false) :
    assign_driver_to_ride env now did rid st = (true, commit_changes env now
      { st with
        drivers := replaceFirst (fun d => d.id = did)
          { driver with unavailable_timings := driver.unavailable_timings
              ++ [(ride.ride_start, ride.ride_end, ride.id)] } st.drivers
        rides := replaceFirst (fun r => r.id = rid)
          { ride with
            assigned_driver := some driver.id
            possible_drivers := [] } st.rides }) := by
  unfold assign_driver_to_ride
  simp only [hfd, hfr]
  have hacc : driver.add_accepted_ride ride = (true,
      { driver with unavailable_timings := driver.unavailable_timings
          ++ [(ride.ride_start, ride.ride_end, ride.id)] }) := by
    simp [Driver.add_accepted_ride, hconf]
  simp only [hacc]
  rfl

/-! ## The claims -/

/-- C2: in the flow network of a matching run, for drivers `i` and unmatched
rides `j` that exist, the edge `driver(i) → ride(j)` is present with
capacity 1 iff the distance from the driver's address to the ride's pickup
address is strictly below the threshold and the id pair is not rejected;
every `source → driver(i)` edge carries the per-driver cap and every
`ride(j) → sink` edge the per-ride cap. -/
theorem claim_C2 (env : Env) (drivers : List Driver) (unmatched : List Ride)
    (rejected : List (String × String)) (dl : Int) (c1 c2 : Nat)
    (i j : Nat) (d : Driver) (r : Ride)
    (hd : drivers[i]? = some d) (hr : unmatched[j]? = some r) :
    (build_graph env drivers unmatched rejected dl c1 c2 (Node.D i) (Node.R j)
        = if env.dist d.address r.pickup_address < dl ∧ (d.id, r.id) ∉ rejected
          then some 1 else none) ∧
    build_graph env drivers unmatched rejected dl c1 c2 Node.S (Node.D i) = some c1 ∧
    build_graph env drivers unmatched rejected dl c1 c2 (Node.R j) Node.T = some c2 := by
  obtain ⟨hi, -⟩ := List.getElem?_eq_some.mp hd
  obtain ⟨hj, -⟩ := List.getElem?_eq_some.mp hr
  refine ⟨?_, ?_, ?_⟩
  · rw [build_graph_dr env rejected dl c1 c2 hd hr]
    have hiff : is_suitable env rejected dl d r = true
        ↔ (env.dist d.address r.pickup_address < dl ∧ (d.id, r.id) ∉ rejected) := by
      simp [is_suitable]
    by_cases hs : env.dist d.address r.pickup_address < dl ∧ (d.id, r.id) ∉ rejected
    · rw [if_pos (hiff.mpr hs), if_pos hs]
    · rw [if_neg (fun hc => hs (hiff.mp hc)), if_neg hs]
  · rw [build_graph_SD, if_pos hi]
  · rw [build_graph_RT, if_pos hj]

theorem claim_C2_witness :
    (build_graph envZero [driverFree] [rideOpen] [] 10 2 3 (Node.D 0) (Node.R 0)
        = if envZero.dist driverFree.address rideOpen.pickup_address < 10
              ∧ (driverFree.id, rideOpen.id) ∉ ([] : List (String × String))
          then some 1 else none) ∧
    build_graph envZero [driverFree] [rideOpen] [] 10 2 3 Node.S (Node.D 0) = some 2 ∧
    build_graph envZero [driverFree] [rideOpen] [] 10 2 3 (Node.R 0) Node.T = some 3 :=
  claim_C2 envZero [driverFree] [rideOpen] [] 10 2 3 0 0 driverFree rideOpen rfl rfl

/-- C6: a non-forced matching call on a state whose `changed` flag is false
is a no-op returning the not-run message and the untouched state; and since
every matching invocation clears the `changed` flag, a second non-forced
call with no intervening mutation is always such a no-op. -/
theorem claim_C6 (env : Env) (fuel fuel2 : Nat) (dd dd2 : Int)
    (c1 c2 c12 c22 : Nat) (force : Bool) (st : MatchMaker) :
    (st.changed = false →
      run_match env (fuel + 1) dd c1 c2 false st = ⟨st, true, false⟩) ∧
    run_match env (fuel2 + 1) dd2 c12 c22 false
        (run_match env (fuel + 1) dd c1 c2 force st).state
      = ⟨(run_match env (fuel + 1) dd c1 c2 force st).state, true, false⟩ := by
  refine ⟨fun h => run_match_noop env fuel dd c1 c2 st h, ?_⟩
  exact run_match_noop env fuel2 dd2 c12 c22 _
    (run_match_changed_false env fuel dd c1 c2 force st)

theorem claim_C6_witness :
    run_match envZero 1 10 200 5 false stNoop = ⟨stNoop, true, false⟩ :=
  (claim_C6 envZero 0 0 10 10 200 5 200 5 false stNoop).1 rfl

/-- C7: the invariant that an assigned ride carries an empty candidate list
is preserved by every operator action (including every matching run, which
is one of the actions), and the unmatched-ride set prepared for a matching
pass contains only unassigned rides. -/
theorem claim_C7 (env : Env) (op : Op) (st : MatchMaker) :
    (AssignedEmpty st → AssignedEmpty (applyOp env op st)) ∧
    ∀ r ∈ filter_unmatched_rides st, r.assigned_driver = none := by
  refine ⟨fun hA => applyOp_assigned_empty env op st hA, ?_⟩
  intro r hr
  simpa using (List.mem_filter.mp hr).2

theorem claim_C7_witness :
    AssignedEmpty (applyOp envZero (Op.runMatch 10 200 5 true) stZero) :=
  (claim_C7 envZero (Op.runMatch 10 200 5 true) stZero).1
    (by
      intro r hr hne
      rw [show stZero.rides = [rideZero] from rfl] at hr
      rw [List.mem_singleton.mp hr]
      rfl)

/-- C8: after any commit, every pair of the rejected set names a ride id
that is present among the retained rides (pairs whose ride was pruned or
deleted have been garbage-collected). -/
theorem claim_C8 (env : Env) (now : Int) (st : MatchMaker) :
    ∀ p ∈ (commit_changes env now st).rejected,
      p.2 ∈ rideIds (commit_changes env now st) :=
  commit_changes_rejected_valid env now st

theorem claim_C8_witness :
    "r1" ∈ rideIds (commit_changes envZero 0 stRej) :=
  claim_C8 envZero 0 stRej ("d9", "r1") (by decide)

/-- C1 counterexample: a completed, pipeline-running matching invocation
with per-ride cap 1 whose final state has a ride with 2 candidates.  The
start threshold 1 matches nothing (every distance is 5), so the widening
re-run executes with the default caps 200 and 5 instead of the invocation's
caps, and its candidate lists are what the state keeps. -/
theorem claim_C1_counterexample :
    (run_match envFive 6 1 200 1 true stWide).completed = true ∧
    (run_match envFive 6 1 200 1 true stWide).ranPipeline = true ∧
    ∃ r ∈ (run_match envFive 6 1 200 1 true stWide).state.rides,
      1 < r.possible_drivers.length := by decide

/-- C1 (amended): a completed, pipeline-running matching invocation on a
well-formed state (assigned rides have no candidates, driver ids are
duplicate-free) bounds every ride's candidate list by the larger of the
invocation's per-ride cap and the default 5, and every driver id's
appearances across all candidate lists by the larger of the invocation's
per-driver cap and the default 200 — the radius-widening re-runs revert to
the default caps, so the invocation's own caps alone do not bound the
result. -/
theorem claim_C1 (env : Env) (fuel : Nat) (dd : Int) (c1 c2 : Nat)
    (force : Bool) (st : MatchMaker)
    (hA : AssignedEmpty st) (hnd : (st.drivers.map (fun d => d.id)).Nodup)
    (hc : (run_match env fuel dd c1 c2 force st).completed = true)
    (hp : (run_match env fuel dd c1 c2 force st).ranPipeline = true) :
    (∀ r ∈ (run_match env fuel dd c1 c2 force st).state.rides,
      r.possible_drivers.length ≤ max c2 5) ∧
    ∀ did, appearances (run_match env fuel dd c1 c2 force st).state.rides did
      ≤ max c1 200 :=
  run_match_caps env fuel dd c1 c2 force st hA hnd hc hp

theorem claim_C1_witness :
    appearances (run_match envFive 6 1 200 1 true stWide).state.rides "a"
      ≤ max 200 200 :=
  (claim_C1 envFive 6 1 200 1 true stWide
    (by
      intro r hr hne
      rw [show stWide.rides = [rideC] from rfl] at hr
      rw [List.mem_singleton.mp hr]
      rfl)
    (by decide) (by decide) (by decide)).2 "a"

/-- C3 counterexample: at starting threshold 0 (which is strictly below 80)
the widening recursion never terminates — `ceil(0 * 2) = 0`, so the
threshold stays 0 while the guard `matches < unmatched ≤ 200 ∧ 0 < 80`
keeps holding; no recursion fuel completes the run. -/
theorem claim_C3_counterexample :
    (0 : Int) < 80 ∧ matchNeverCompletes envZero 0 stZero := by
  refine ⟨by norm_num, ?_⟩
  intro fuel
  exact run_match_diverges_aux envZero fuel stZero rfl ⟨rideZero, rfl, rfl⟩

/-- C3 (amended): for every starting threshold `t ≥ 1` the widening
recursion terminates within `widen_steps t` re-invocations, and
`widen_steps t` is exactly the least `k` with `80 ≤ 2^k · t`, that is
`⌈log₂(80/t)⌉`; thresholds `≤ 0` diverge, so the claim's bound holds for
positive thresholds only. -/
theorem claim_C3 (t : Int) (h1 : 1 ≤ t) :
    80 ≤ 2 ^ widen_steps t * t ∧
    (∀ k : Nat, 80 ≤ 2 ^ k * t → widen_steps t ≤ k) ∧
    ∀ (env : Env) (c1 c2 : Nat) (force : Bool) (st : MatchMaker),
      (run_match env (widen_steps t + 1) t c1 c2 force st).completed = true := by
  refine ⟨widen_steps_reaches h1, fun k hk => widen_steps_min hk, ?_⟩
  intro env c1 c2 force st
  exact run_match_completes env (widen_steps t) t rfl h1 c1 c2 force st

theorem claim_C3_witness :
    (run_match envZero (widen_steps 10 + 1) 10 200 5 false stZero).completed = true :=
  (claim_C3 10 (by norm_num)).2.2 envZero 200 5 false stZero

/-- C9 counterexample: a ride whose end lies less than 2 days in the past
is nevertheless dropped by a commit, because an earlier ride with the same
id survives de-duplication in its place. -/
theorem claim_C9_counterexample :
    (1100000 - rideQ.ride_end) / 86400 < 2 ∧
    rideQ ∉ (commit_changes envZero 1100000 stDup).rides := by decide

/-- C9 (amended): a commit retains exactly the young rides up to
de-duplication by id — every retained ride's end lies less than 2 days
(172800 seconds, by floored division) in the past, every young stored
ride's id survives, and the pruning step keeps precisely the rides with
`(now - ride_end) / 86400 < 2`; a young ride can still be dropped as an
object when an earlier ride with the same id survives in its place. -/
theorem claim_C9 (env : Env) (now : Int) (st : MatchMaker) :
    (∀ r' ∈ (commit_changes env now st).rides, now - r'.ride_end < 172800) ∧
    (∀ r ∈ st.rides, now - r.ride_end < 172800 →
      r.id ∈ rideIds (commit_changes env now st)) ∧
    ∀ r, r ∈ (remove_old_rides now st).rides
      ↔ r ∈ st.rides ∧ (now - r.ride_end) / 86400 < 2 := by
  refine ⟨?_, ?_, ?_⟩
  · intro r' hr'
    have h := commit_changes_young env now st r' hr'
    omega
  · intro r hr hy
    exact commit_changes_young_id_retained env now st hr (by omega)
  · intro r
    simp [remove_old_rides, List.mem_filter]

theorem claim_C9_witness :
    "rX" ∈ rideIds (commit_changes envZero 1100000 stDup) :=
  (claim_C9 envZero 1100000 stDup).2.1 rideP (by decide) (by decide)

/-- C4: once a pair has been rejected through the reject action, then along
any subsequent sequence of actions during which the ride id stays retained,
the pair remains in the rejected set and the driver id never appears in the
candidate list of any ride with that id — including the candidate lists
written by radius-widening re-runs, which reuse the same rejected set. -/
theorem claim_C4 (env : Env) (now : Int) (did rid : String) (st : MatchMaker)
    (ops : List Op) (hA : AssignedEmpty st)
    (htrace : ∀ k, rid ∈ rideIds (applyOps env (ops.take k)
      (applyOp env (Op.reject now did rid) st))) :
    (did, rid) ∈ (applyOps env ops (applyOp env (Op.reject now did rid) st)).rejected ∧
    ExcludedFrom (applyOps env ops (applyOp env (Op.reject now did rid) st)) did rid := by
  have hrid0 : rid ∈ rideIds (applyOp env (Op.reject now did rid) st) := by
    simpa using htrace 0
  have hA0 : AssignedEmpty (applyOp env (Op.reject now did rid) st) :=
    applyOp_assigned_empty env _ st hA
  have hbase : (did, rid) ∈ (applyOp env (Op.reject now did rid) st).rejected ∧
      ExcludedFrom (applyOp env (Op.reject now did rid) st) did rid := by
    refine commit_changes_excluded env now ?_ hA ?_
    · exact List.mem_insert_self _ _
    · exact hrid0
  exact applyOps_retains env ops _ hA0 hbase.1 hbase.2 htrace

theorem claim_C4_witness :
    ("d9", "r1") ∈ (applyOps envZero []
        (applyOp envZero (Op.reject 0 "d9" "r1") stRej)).rejected ∧
    ExcludedFrom (applyOps envZero []
        (applyOp envZero (Op.reject 0 "d9" "r1") stRej)) "d9" "r1" :=
  claim_C4 envZero 0 "d9" "r1" stRej []
    (by
      intro r hr hne
      rw [show stRej.rides = [rideR1] from rfl] at hr
      rw [List.mem_singleton.mp hr]
      rfl)
    (by
      intro k
      rw [List.take_nil]
      decide)

/-- Any ride retained by a commit has the skeleton (all fields except the
candidate list) of some stored ride. -/
theorem commit_changes_skel_mem (env : Env) (now : Int) (st : MatchMaker)
    {r' : Ride} (hr' : r' ∈ (commit_changes env now st).rides) :
    ∃ r0 ∈ st.rides, skel r0 = skel r' := by
  have hskel : (commit_changes env now st).rides.map skel
      = (make_unique (remove_old_rides now { st with changed := true })).rides.map skel := by
    unfold commit_changes
    exact run_match_skel env commit_fuel 10 200 5 false _
  obtain ⟨r0, hr0, hsk⟩ := mem_of_map_eq hskel hr'
  exact ⟨r0, (List.mem_filter.mp (mem_dedupKeepFirst _ _ _ hr0)).1, hsk⟩

/-- C5: confirming an assignment fails, leaving the state untouched, when
either id is absent or when the ride's interval overlaps a committed
interval of the driver; on success it returns `true`, the driver's record
gains the ride's interval, and (when the stored ride ids are
duplicate-free) every retained ride with the id is assigned to the
driver. -/
theorem claim_C5 (env : Env) (now : Int) (did rid : String) (st : MatchMaker) :
    ((st.drivers.find? (fun d => d.id = did) = none
        ∨ st.rides.find? (fun r => r.id = rid) = none) →
      assign_driver_to_ride env now did rid st = (false, st)) ∧
    (∀ driver ride, st.drivers.find? (fun d => d.id = did) = some driver →
      st.rides.find? (fun r => r.id = rid) = some ride →
      driver.unavailable_timings.any
        (fun t => overlaps t.1 t.2.1 ride.ride_start ride.ride_end) = true →
      assign_driver_to_ride env now did rid st = (false, st)) ∧
    ∀ driver ride, st.drivers.find? (fun d => d.id = did) = some driver →
      st.rides.find? (fun r => r.id = rid) = some ride →
      driver.unavailable_timings.any
        (fun t => overlaps t.1 t.2.1 ride.ride_start ride.ride_end) = false →
      (assign_driver_to_ride env now did rid st).1 = true ∧
      (∃ d' ∈ (assign_driver_to_ride env now did rid st).2.drivers,
        d'.id = did ∧ (ride.ride_start, ride.ride_end, ride.id) ∈ d'.unavailable_timings) ∧
      ((rideIds st).Nodup →
        ∀ r' ∈ (assign_driver_to_ride env now did rid st).2.rides,
          r'.id = rid → r'.assigned_driver = some did) := by
  refine ⟨?_, ?_, ?_⟩
  · rintro (hN | hN)
    · unfold assign_driver_to_ride
      simp only [hN]
    · unfold assign_driver_to_ride
      cases hfd : st.drivers.find? (fun d => d.id = did) with
      | none => simp only [hfd]
      | some driver => simp only [hfd, hN]
  · intro driver ride hfd hfr hconf
    unfold assign_driver_to_ride
    simp only [hfd, hfr]
    have hacc : driver.add_accepted_ride ride = (false, driver) := by
      simp [Driver.add_accepted_ride, hconf]
    simp only [hacc]
  · intro driver ride hfd hfr hconf
    have hdid : driver.id = did := by simpa using List.find?_some hfd
    have hrid : ride.id = rid := by simpa using List.find?_some hfr
    rw [assign_success_eq env now did rid st hfd hfr hconf]
    refine ⟨rfl, ?_, ?_⟩
    · refine ⟨{ driver with unavailable_timings := driver.unavailable_timings
          ++ [(ride.ride_start, ride.ride_end, ride.id)] }, ?_, hdid, by simp⟩
      rw [commit_changes_drivers]
      refine List.mem_of_find?_eq_some
        ((find?_dedupKeepFirst (fun d => d.id) did _ [] (by simp)).trans
          (replaceFirst_find? _ _ st.drivers hfd (by simp [hdid])))
    · intro hnd r' hr' hid'
      obtain ⟨r0, hr0mem, hsk⟩ := commit_changes_skel_mem env now _ hr'
      have hr0id : r0.id = rid := by rw [skel_id hsk]; exact hid'
      have hr0eq : r0 = { ride with
          assigned_driver := some driver.id
          possible_drivers := [] } :=
        replaceFirst_key_unique (fun r => r.id) (fun r => r.id = rid) _ rid
          (by intro a; simp) st.rides
          (show (st.rides.map (fun r => r.id)).Nodup from hnd) r0 hr0mem hr0id
      rw [← skel_assigned hsk, hr0eq]
      show some driver.id = some did
      rw [hdid]

theorem claim_C5_witness :
    (assign_driver_to_ride envZero 0 "d1" "ro" stAssign).1 = true :=
  ((claim_C5 envZero 0 "d1" "ro" stAssign).2.2 driverFree rideOpen rfl rfl rfl).1

/-- C10: loading the latest snapshot is destructive — on a non-empty
collection with distinct ids, `get_latest` returns the document with the
greatest id and the collection afterwards holds exactly that document; on
an empty collection it returns nothing and deletes nothing; and engine
construction leaves the store exactly as `get_latest` leaves it, so older
snapshots are discarded by constructing an instance. -/
theorem claim_C10 {α : Type} (docs : List (Int × α)) (store : List (Int × Snapshot)) :
    get_latest ([] : List (Int × α)) = (none, []) ∧
    (docs ≠ [] → (docs.map Prod.fst).Nodup →
      ∃ m, get_latest docs = (some m, [m]) ∧ m ∈ docs ∧ ∀ d ∈ docs, d.1 ≤ m.1) ∧
    (matchmaker_init store).2 = (get_latest store).2 := by
  refine ⟨rfl, ?_, ?_⟩
  · intro hne hnd
    cases hmd : maxDoc docs with
    | none => exact absurd (maxDoc_eq_none hmd) hne
    | some m =>
      obtain ⟨hmem, hmax⟩ := maxDoc_spec docs m hmd
      refine ⟨m, ?_, hmem, hmax⟩
      unfold get_latest
      simp only [hmd]
      have hfil : docs.filter (fun d => d.1 = m.1) = [m] := by
        apply eq_singleton_of_nodup_all_eq
        · exact List.Nodup.filter _ (List.Nodup.of_map _ hnd)
        · exact List.mem_filter.mpr ⟨hmem, by simp⟩
        · intro x hx
          obtain ⟨hxd, hxe⟩ := List.mem_filter.mp hx
          exact List.inj_on_of_nodup_map hnd hxd hmem (by simpa using hxe)
      rw [hfil]
  · cases hgl : get_latest store with
    | mk o s =>
      cases o with
      | none => simp [matchmaker_init, hgl]
      | some doc => simp [matchmaker_init, hgl]

theorem claim_C10_witness :
    ∃ m, get_latest docsW = (some m, [m]) ∧ m ∈ docsW ∧ ∀ d ∈ docsW, d.1 ≤ m.1 :=
  (claim_C10 docsW []).2.1 (by decide) (by decide)

end RoutesCC
